import Mathlib

/-!
# AriaSQL catalog core — verification development

A shallow embedding of the catalog/table-storage core of AriaSQL
(package `catalog`), with theorems about its user/privilege operations,
sequence counter, row codec, encryption key derivation and table store.

Modelling conventions:

* Go maps are modelled as association lists kept in insertion order;
  Go iterates maps in randomized order, and none of the proved statements
  depends on the traversal order.
* File-system state (the users file, the sequence file, the paged row file,
  the index B-trees) is carried explicitly in small state structures; a write
  to a file is a functional update of that state.
* External collaborators that are not part of this repository
  (`encoding/gob`, `crypto/sha256`, `golang.org/x/crypto/chacha20`,
  `github.com/DataDog/zstd`, the B-tree pager) are given executable models;
  each such definition carries a comment identifying what it stands for.
* Go runtime panics (e.g. comparison of uncomparable interface values,
  failed type assertions) are modelled as distinguished error results.
-/

set_option maxRecDepth 100000

namespace AriaSQL

/-- `shared.PrivilegeAction` — the closed set of privilege actions
(`select, insert, update, delete, create, drop, alter, grant, revoke, all`). -/
inductive PrivilegeAction where
  | priv_select
  | priv_insert
  | priv_update
  | priv_delete
  | priv_create
  | priv_drop
  | priv_alter
  | priv_grant
  | priv_revoke
  | priv_all
  deriving DecidableEq, Repr

/-- `catalog.Privilege` — (database name or `*`, table name or `*`, action list). -/
structure Privilege where
  DatabaseName : String
  TableName : String
  PrivilegeActions : List PrivilegeAction
  deriving DecidableEq, Repr

/-- The inner loop of `User.HasPrivilege`: for each stored action `pa` of the
privilege, append `true` to `has` when `pa` equals the requested action or is
`PRIV_ALL`.  This loop appears verbatim in all four match branches of the
source. -/
def privActionScan (has : List Bool) (pas : List PrivilegeAction) (a : PrivilegeAction) :
    List Bool :=
  pas.foldl
    (fun has pa =>
      if pa = a then has ++ [true]
      else if pa = PrivilegeAction.priv_all then has ++ [true]
      else has)
    has

/-- `User.HasPrivilege(db, tbl, actions)` (src/unnamed/part_001:1789-1836):
builds the `has` slice by scanning every (privilege, requested action) pair
through the four wildcard match branches, then compares `len(has)` with
`len(actions)`. -/
def HasPrivilege (privs : List Privilege) (db tbl : String)
    (actions : List PrivilegeAction) : Bool :=
  let has : List Bool :=
    privs.foldl
      (fun has p =>
        actions.foldl
          (fun has a =>
            if p.DatabaseName = db ∧ p.TableName = tbl then
              privActionScan has p.PrivilegeActions a
            else if p.DatabaseName = "*" ∧ p.TableName = "*" then
              privActionScan has p.PrivilegeActions a
            else if p.DatabaseName = db ∧ p.TableName = "*" then
              privActionScan has p.PrivilegeActions a
            else if p.DatabaseName = "*" ∧ p.TableName = tbl then
              privActionScan has p.PrivilegeActions a
            else has)
          has)
      []
  has.length == actions.length

/-- The wildcard match table of spec §4.4: a stored privilege `(dbField, tblField)`
matches the requested `(db, tbl)` when it is `(db, tbl)`, `(*, *)`, `(db, *)`
or `(*, tbl)`. -/
def privEntryMatch (p : Privilege) (db tbl : String) : Bool :=
  (p.DatabaseName == db && p.TableName == tbl) ||
  (p.DatabaseName == "*" && p.TableName == "*") ||
  (p.DatabaseName == db && p.TableName == "*") ||
  (p.DatabaseName == "*" && p.TableName == tbl)

/-- Stated from the spec's words (§4.4), for comparison with `HasPrivilege`:
true iff for every requested action there exists at least one privilege entry
matching `(db, tbl)` under the match table whose action list contains that
action or `all`. -/
def specHasPrivilege (privs : List Privilege) (db tbl : String)
    (actions : List PrivilegeAction) : Bool :=
  actions.all fun a =>
    privs.any fun p =>
      privEntryMatch p db tbl &&
        p.PrivilegeActions.any fun pa => pa == a || pa == PrivilegeAction.priv_all

/-- Total number of (privilege entry, requested action, stored action) triples
where the entry matches `(db, tbl)` and the stored action equals the requested
action or is `all`.  `HasPrivilege` compares this total with `actions.length`. -/
def matchCount (privs : List Privilege) (db tbl : String)
    (actions : List PrivilegeAction) : Nat :=
  (privs.map fun p =>
    if privEntryMatch p db tbl then
      (actions.map fun a =>
        p.PrivilegeActions.countP fun pa =>
          pa == a || pa == PrivilegeAction.priv_all).sum
    else 0).sum

theorem privActionScan_length (has : List Bool) (pas : List PrivilegeAction)
    (a : PrivilegeAction) :
    (privActionScan has pas a).length =
      has.length + pas.countP (fun pa => pa == a || pa == PrivilegeAction.priv_all) := by
  induction pas generalizing has with
  | nil => simp [privActionScan, List.countP_nil]
  | cons pa pas ih =>
    simp only [privActionScan, List.foldl_cons, List.countP_cons]
    by_cases h1 : pa = a
    · simp only [privActionScan] at ih
      simp [h1, ih, List.length_append]
      omega
    · by_cases h2 : pa = PrivilegeAction.priv_all
      · simp only [privActionScan] at ih
        simp [h1, h2, ih, List.length_append]
        omega
      · simp only [privActionScan] at ih
        simp [h1, h2, ih]

theorem hasPrivilege_branch_eq (p : Privilege) (db tbl : String)
    (has : List Bool) (a : PrivilegeAction) :
    (if p.DatabaseName = db ∧ p.TableName = tbl then
        privActionScan has p.PrivilegeActions a
      else if p.DatabaseName = "*" ∧ p.TableName = "*" then
        privActionScan has p.PrivilegeActions a
      else if p.DatabaseName = db ∧ p.TableName = "*" then
        privActionScan has p.PrivilegeActions a
      else if p.DatabaseName = "*" ∧ p.TableName = tbl then
        privActionScan has p.PrivilegeActions a
      else has) =
      (if privEntryMatch p db tbl then privActionScan has p.PrivilegeActions a
        else has) := by
  simp only [privEntryMatch, Bool.or_eq_true, Bool.and_eq_true, beq_iff_eq]
  split_ifs with h1 h2 h3 h4 h5 h5 h5 h5 <;> first | rfl | (exfalso; tauto)

theorem hasPrivilege_inner_length (p : Privilege) (db tbl : String)
    (actions : List PrivilegeAction) (has : List Bool) :
    (actions.foldl
      (fun has a =>
        if p.DatabaseName = db ∧ p.TableName = tbl then
          privActionScan has p.PrivilegeActions a
        else if p.DatabaseName = "*" ∧ p.TableName = "*" then
          privActionScan has p.PrivilegeActions a
        else if p.DatabaseName = db ∧ p.TableName = "*" then
          privActionScan has p.PrivilegeActions a
        else if p.DatabaseName = "*" ∧ p.TableName = tbl then
          privActionScan has p.PrivilegeActions a
        else has)
      has).length =
      has.length +
        (if privEntryMatch p db tbl then
          (actions.map fun a =>
            p.PrivilegeActions.countP fun pa =>
              pa == a || pa == PrivilegeAction.priv_all).sum
        else 0) := by
  induction actions generalizing has with
  | nil => simp
  | cons a actions ih =>
    simp only [List.foldl_cons, List.map_cons, List.sum_cons]
    rw [ih, hasPrivilege_branch_eq]
    by_cases h : privEntryMatch p db tbl = true
    · simp [h, privActionScan_length]
      omega
    · simp [h]

theorem hasPrivilege_has_length (privs : List Privilege) (db tbl : String)
    (actions : List PrivilegeAction) (has : List Bool) :
    (privs.foldl
      (fun has p =>
        actions.foldl
          (fun has a =>
            if p.DatabaseName = db ∧ p.TableName = tbl then
              privActionScan has p.PrivilegeActions a
            else if p.DatabaseName = "*" ∧ p.TableName = "*" then
              privActionScan has p.PrivilegeActions a
            else if p.DatabaseName = db ∧ p.TableName = "*" then
              privActionScan has p.PrivilegeActions a
            else if p.DatabaseName = "*" ∧ p.TableName = tbl then
              privActionScan has p.PrivilegeActions a
            else has)
          has)
      has).length = has.length + matchCount privs db tbl actions := by
  induction privs generalizing has with
  | nil => simp [matchCount]
  | cons p privs ih =>
    simp only [List.foldl_cons, matchCount, List.map_cons, List.sum_cons]
    rw [ih, hasPrivilege_inner_length]
    simp [matchCount]
    omega

/-- **C1** (corrected).  `HasPrivilege` does *not* implement the per-action
existential of the spec: it compares the *total number* of
(privilege, action, stored-action) match triples with the number of requested
actions, so a requested action that is matched by several privilege entries
can stand in for a different requested action that no entry matches.
Counterexample: privileges `(d,t,[select])` and `(*,t,[select])`, request
`(d, t, [select, insert])` — `HasPrivilege` returns true although no entry
grants `insert`. -/
theorem C1_hasPrivilege_counterexample :
    HasPrivilege [⟨"d", "t", [PrivilegeAction.priv_select]⟩,
        ⟨"*", "t", [PrivilegeAction.priv_select]⟩] "d" "t"
        [PrivilegeAction.priv_select, PrivilegeAction.priv_insert] = true ∧
    specHasPrivilege [⟨"d", "t", [PrivilegeAction.priv_select]⟩,
        ⟨"*", "t", [PrivilegeAction.priv_select]⟩] "d" "t"
        [PrivilegeAction.priv_select, PrivilegeAction.priv_insert] = false := by
  constructor <;> rfl

/-- **C1** (amended).  For every user and request, `HasPrivilege` returns true
iff the total number of (privilege entry, requested action, stored action)
triples — where the entry matches `(db, tbl)` under the wildcard match table
and the stored action equals the requested action or is `all` — equals the
number of requested actions. -/
theorem C1_hasPrivilege_amended (privs : List Privilege) (db tbl : String)
    (actions : List PrivilegeAction) :
    HasPrivilege privs db tbl actions = true ↔
      matchCount privs db tbl actions = actions.length := by
  unfold HasPrivilege
  rw [beq_iff_eq, hasPrivilege_has_length]
  simp

/-- The in-memory user map (username → privilege list) together with the users
file.  `fileUsers` is the user image most recently written by
`EncodeUsersToFile` (which gob-encodes the whole map from offset 0). -/
structure UsersState where
  users : List (String × List Privilege)
  fileUsers : List (String × List Privilege)
  deriving DecidableEq, Repr

/-- `Catalog.EncodeUsersToFile` — rewrites the users file with the current
in-memory user map. -/
def EncodeUsersToFile (st : UsersState) : UsersState :=
  { st with fileUsers := st.users }

/-- One step of the j-loop of the action-removal branch of
`RevokePrivilegeFromUser` (src/unnamed/part_001:1594-1601), with Go slice
semantics made explicit: the backing array `A` is shifted in place by
`append(l.PrivilegeActions[:j], l.PrivilegeActions[j+1:]...)` and the slice
header length `c` drops by one, while the range keeps iterating over the
header captured at loop entry. -/
def goRemoveActionPass (st : List PrivilegeAction × Nat) (a : PrivilegeAction) :
    List PrivilegeAction × Nat :=
  (List.range st.2).foldl
    (fun st j =>
      let A := st.1
      let c := st.2
      if A.getD j PrivilegeAction.priv_all = a then
        (A.take j ++ (A.drop (j + 1)).take (c - 1 - j) ++ A.drop (c - 1), c - 1)
      else st)
    st

/-- The action-removal branch of `RevokePrivilegeFromUser`: for every action of
the revoke request, scan the (aliased, shrinking) stored action slice and
splice out matches; the result is the final slice header's view of the array. -/
def goRemoveActions (stored toRemove : List PrivilegeAction) : List PrivilegeAction :=
  let st := toRemove.foldl goRemoveActionPass (stored, stored.length)
  st.1.take st.2

/-- `Catalog.RevokePrivilegeFromUser` (src/unnamed/part_001:1572-1620),
including its self-comparison `l.DatabaseName == l.DatabaseName &&
l.TableName == l.TableName` in the inner loop, which is vacuously true and
therefore always selects index 0.  Returns the mutated state and the error
result. -/
def RevokePrivilegeFromUser (st : UsersState) (username : String) (priv : Privilege) :
    UsersState × Except String Unit :=
  match (st.users.lookup username) with
  | none => (st, Except.error ("user " ++ username ++ " does not exist"))
  | some ps =>
    if ps.any (fun p =>
        p.DatabaseName == priv.DatabaseName && p.TableName == priv.TableName) then
      let ps' :=
        match ps.findIdx? (fun l =>
            decide (l.DatabaseName = l.DatabaseName ∧ l.TableName = l.TableName)) with
        | none => ps
        | some i =>
          let l := ps.getD i ⟨"", "", []⟩
          if l.PrivilegeActions.length = priv.PrivilegeActions.length then
            ps.take i ++ ps.drop (i + 1)
          else
            ps.set i { l with
              PrivilegeActions := goRemoveActions l.PrivilegeActions priv.PrivilegeActions }
      let st' := EncodeUsersToFile
        { st with users := st.users.map (fun u => if u.1 = username then (u.1, ps') else u) }
      (st', Except.ok ())
    else
      (st, Except.error ("privilege does not exist for user " ++ username))

/-- `Catalog.GrantPrivilegeToUser` (src/unnamed/part_001:1623-1650). -/
def GrantPrivilegeToUser (st : UsersState) (username : String) (priv : Privilege) :
    UsersState × Except String Unit :=
  match (st.users.lookup username) with
  | none => (st, Except.error ("user " ++ username ++ " does not exist"))
  | some ps =>
    if ps.any (fun p =>
        p.DatabaseName == priv.DatabaseName && p.TableName == priv.TableName) then
      (st, Except.error ("privilege already exists for user " ++ username))
    else
      let st' := EncodeUsersToFile
        { st with users :=
            st.users.map fun u => if u.1 = username then (u.1, ps ++ [priv]) else u }
      (st', Except.ok ())

/-- **C2** (code bug, acknowledged by spec §4.4/§9).  The inner loop of
`RevokePrivilegeFromUser` compares each privilege's fields to themselves, so it
always rewrites the *first* privilege entry instead of the one matching
`(priv.DatabaseName, priv.TableName)`.  Failing input: user `u` holding
`[(a,b,[select]), (c,d,[select])]`, revoking `(c,d,[select])` removes the
unrelated `(a,b)` entry and keeps `(c,d)`. -/
theorem C2_revoke_code_bug_eval :
    RevokePrivilegeFromUser
        { users := [("u", [⟨"a", "b", [PrivilegeAction.priv_select]⟩,
            ⟨"c", "d", [PrivilegeAction.priv_select]⟩])],
          fileUsers := [] }
        "u" ⟨"c", "d", [PrivilegeAction.priv_select]⟩ =
      ({ users := [("u", [⟨"c", "d", [PrivilegeAction.priv_select]⟩])],
         fileUsers := [("u", [⟨"c", "d", [PrivilegeAction.priv_select]⟩])] },
        Except.ok ()) := by
  rfl

/-- **C10** (confirmed).  `GrantPrivilegeToUser` fails with an already-exists
error as soon as the user holds any privilege with the same
(database, table) pair — the action lists are not compared — and in that case
neither the in-memory privilege list nor the users file changes. -/
theorem C10_grant_already_exists (st : UsersState) (username : String)
    (priv : Privilege) (ps : List Privilege)
    (hlk : st.users.lookup username = some ps)
    (p : Privilege) (hp : p ∈ ps)
    (hdb : p.DatabaseName = priv.DatabaseName) (htb : p.TableName = priv.TableName) :
    GrantPrivilegeToUser st username priv =
      (st, Except.error ("privilege already exists for user " ++ username)) := by
  unfold GrantPrivilegeToUser
  rw [hlk]
  have : ps.any (fun p =>
      p.DatabaseName == priv.DatabaseName && p.TableName == priv.TableName) = true := by
    rw [List.any_eq_true]
    exact ⟨p, hp, by simp [hdb, htb]⟩
  simp [this]

/-- Witness for C10: a concrete user holding `(d,t,[select])` is refused a
grant of `(d,t,[insert])` and the state is unchanged. -/
theorem C10_grant_already_exists_witness :
    GrantPrivilegeToUser
        { users := [("u", [⟨"d", "t", [PrivilegeAction.priv_select]⟩])], fileUsers := [] }
        "u" ⟨"d", "t", [PrivilegeAction.priv_insert]⟩ =
      ({ users := [("u", [⟨"d", "t", [PrivilegeAction.priv_select]⟩])], fileUsers := [] },
        Except.error ("privilege already exists for user " ++ "u")) :=
  C10_grant_already_exists _ "u" _ _ (by rfl)
    ⟨"d", "t", [PrivilegeAction.priv_select]⟩ (by simp) (by rfl) (by rfl)

/-! ## Decimal strings: `fmt.Sprintf("%d", ·)` and `strconv.Atoi` -/

/-- Digit expansion of a positive natural number, most significant digit
first; the first argument is recursion fuel (any bound on the number). -/
def itoaNatAux : Nat → Nat → List Char
  | 0, _ => []
  | fuel + 1, n =>
    if n = 0 then []
    else itoaNatAux fuel (n / 10) ++ [Nat.digitChar (n % 10)]

/-- Decimal rendering of a natural number, as `fmt.Sprintf("%d", ·)` produces
for a non-negative integer. -/
def itoaNat (n : Nat) : List Char :=
  if n = 0 then ['0'] else itoaNatAux n n

/-- Decimal rendering of an integer (`fmt.Sprintf("%d", ·)`). -/
def itoaInt (i : Int) : List Char :=
  if i < 0 then '-' :: itoaNat i.natAbs else itoaNat i.toNat

def isDecDigit (c : Char) : Bool :=
  '0' ≤ c && c ≤ '9'

def decDigitsVal (cs : List Char) : Nat :=
  cs.foldl (fun acc c => acc * 10 + (c.toNat - 48)) 0

/-- Model of `strconv.Atoi`: optional sign, then a non-empty run of decimal
digits; anything else is a syntax error.  (The int64 range check of the Go
function is not modelled; no statement below depends on it.) -/
def atoiChars (cs : List Char) : Option Int :=
  match cs with
  | [] => none
  | c :: rest =>
    if c = '-' then
      if rest ≠ [] ∧ rest.all isDecDigit then some (-(decDigitsVal rest : Int)) else none
    else if c = '+' then
      if rest ≠ [] ∧ rest.all isDecDigit then some (decDigitsVal rest : Int) else none
    else
      if (c :: rest).all isDecDigit then some (decDigitsVal (c :: rest) : Int) else none

theorem digitChar_val {d : Nat} (hd : d < 10) : (Nat.digitChar d).toNat - 48 = d := by
  interval_cases d <;> rfl

theorem digitChar_isDec {d : Nat} (hd : d < 10) : isDecDigit (Nat.digitChar d) = true := by
  interval_cases d <;> rfl

theorem decDigitsVal_append (cs ds : List Char) :
    decDigitsVal (cs ++ ds) =
      ds.foldl (fun acc c => acc * 10 + (c.toNat - 48)) (decDigitsVal cs) := by
  simp [decDigitsVal, List.foldl_append]

theorem itoaNatAux_zero (fuel : Nat) : itoaNatAux fuel 0 = [] := by
  cases fuel <;> simp [itoaNatAux]

theorem itoaNatAux_spec (fuel : Nat) :
    ∀ n, 0 < n → n ≤ fuel →
      decDigitsVal (itoaNatAux fuel n) = n ∧
        (itoaNatAux fuel n).all isDecDigit = true ∧ itoaNatAux fuel n ≠ [] := by
  induction fuel with
  | zero => intro n h1 h2; omega
  | succ fuel ih =>
    intro n h1 h2
    rw [itoaNatAux, if_neg (by omega)]
    have hmod : n % 10 < 10 := Nat.mod_lt _ (by norm_num)
    by_cases hdiv : n / 10 = 0
    · rw [hdiv, itoaNatAux_zero]
      refine ⟨?_, ?_, by simp⟩
      · simp only [List.nil_append, decDigitsVal, List.foldl]
        rw [digitChar_val hmod]
        omega
      · simp [digitChar_isDec hmod]
    · have hd1 : 0 < n / 10 := Nat.pos_of_ne_zero hdiv
      have hd2 : n / 10 ≤ fuel := by
        have := Nat.div_lt_self h1 (show 1 < 10 by norm_num)
        omega
      obtain ⟨hv, ha, _⟩ := ih (n / 10) hd1 hd2
      refine ⟨?_, ?_, by simp⟩
      · rw [decDigitsVal_append]
        simp only [List.foldl]
        rw [hv, digitChar_val hmod]
        omega
      · rw [List.all_append, ha]
        simp [digitChar_isDec hmod]

theorem itoaNat_all_digits (n : Nat) : (itoaNat n).all isDecDigit = true := by
  unfold itoaNat
  split
  · rfl
  · exact (itoaNatAux_spec n n (by omega) (le_refl n)).2.1

theorem itoaNat_ne_nil (n : Nat) : itoaNat n ≠ [] := by
  unfold itoaNat
  split
  · simp
  · exact (itoaNatAux_spec n n (by omega) (le_refl n)).2.2

theorem decDigitsVal_itoaNat (n : Nat) : decDigitsVal (itoaNat n) = n := by
  unfold itoaNat
  split
  · rename_i h; rw [h]; rfl
  · exact (itoaNatAux_spec n n (by omega) (le_refl n)).1

theorem itoaNat_head_digit (n : Nat) :
    ∀ c cs, itoaNat n = c :: cs → isDecDigit c = true := by
  intro c cs h
  have := itoaNat_all_digits n
  rw [h, List.all_cons, Bool.and_eq_true] at this
  exact this.1

theorem atoiChars_itoaNat (n : Nat) : atoiChars (itoaNat n) = some (n : Int) := by
  rcases hne : itoaNat n with _ | ⟨c, cs⟩
  · exact absurd hne (itoaNat_ne_nil n)
  · have hdig := itoaNat_head_digit n c cs hne
    have hall := itoaNat_all_digits n
    have hval := decDigitsVal_itoaNat n
    rw [hne] at hall hval
    have hcm : c ≠ '-' := by rintro rfl; simp [isDecDigit] at hdig
    have hcp : c ≠ '+' := by rintro rfl; simp [isDecDigit] at hdig
    simp only [atoiChars]
    rw [if_neg hcm, if_neg hcp, if_pos hall, hval]

/-! ## `Table.IncrementSequence` (C6) -/

/-- `Table.IncrementSequence` (src/unnamed/part_001:1234-1257): under the
sequence mutex, read the sequence file; if it is empty write `1` and return 1;
otherwise parse the decimal content, truncate, rewind, write `n+1` and return
`n+1`.  The file content is the explicit state. -/
def IncrementSequence (content : List Char) : Except String (List Char × Int) :=
  if content = [] then Except.ok (['1'], 1)
  else
    match atoiChars content with
    | none => Except.error "invalid syntax"
    | some i => Except.ok (itoaInt (i + 1), i + 1)

/-- `N` successive `IncrementSequence` calls starting from an empty sequence
file, as performed by sequence-assigning inserts into a fresh table; returns
the final file content and the list of assigned values. -/
def seqRun : Nat → List Char × List Int
  | 0 => ([], [])
  | n + 1 =>
    let (c, vs) := seqRun n
    match IncrementSequence c with
    | Except.ok (c', v) => (c', vs ++ [v])
    | Except.error _ => (c, vs)

theorem itoaInt_ofNat (n : Nat) : itoaInt (n : Int) = itoaNat n := by
  unfold itoaInt
  rw [if_neg (by omega)]
  simp

theorem seqRun_closed (n : Nat) :
    seqRun n =
      (if n = 0 then [] else itoaNat n,
        (List.range n).map fun k : Nat => ((k : Int) + 1)) := by
  induction n with
  | zero => rfl
  | succ m ih =>
    rw [seqRun, ih]
    rcases Nat.eq_zero_or_pos m with rfl | hm
    · rfl
    · have h1 : itoaNat m ≠ [] := itoaNat_ne_nil _
      have h2 : atoiChars (itoaNat m) = some (m : Int) := atoiChars_itoaNat m
      rw [if_neg (show ¬(m = 0) by omega)]
      simp only [IncrementSequence, if_neg h1, h2]
      have h3 : itoaInt ((m : Int) + 1) = itoaNat (m + 1) := by
        rw [show ((m : Int) + 1) = ((m + 1 : Nat) : Int) by push_cast; ring, itoaInt_ofNat]
      rw [if_neg (show ¬(m + 1 = 0) by omega), h3, List.range_succ, List.map_append]
      simp

/-- **C6** (confirmed).  `IncrementSequence` returns 1 and writes `1` on an
empty sequence file; on a file whose decimal content parses as `i` it writes
`i+1` (the file content is replaced after truncate and rewind) and returns
`i+1`; and after `N` successive calls starting from the fresh (empty) file —
the calls made by `N` successful sequence-assigning inserts into a fresh
table — the assigned values are exactly `1, 2, …, N`. -/
theorem C6_incrementSequence (content : List Char) (i : Int) (N : Nat)
    (hparse : atoiChars content = some i) :
    IncrementSequence [] = Except.ok (['1'], 1) ∧
    IncrementSequence content = Except.ok (itoaInt (i + 1), i + 1) ∧
    (seqRun N).2 = (List.range N).map (fun k : Nat => ((k : Int) + 1)) := by
  refine ⟨rfl, ?_, ?_⟩
  · have hne : content ≠ [] := by
      rintro rfl
      simp [atoiChars] at hparse
    unfold IncrementSequence
    rw [if_neg hne, hparse]
  · rw [seqRun_closed]

/-- Witness for C6 at a concrete input: a file holding `5`, three fresh calls. -/
theorem C6_incrementSequence_witness :
    IncrementSequence [] = Except.ok (['1'], 1) ∧
    IncrementSequence ['5'] = Except.ok (itoaInt (5 + 1), 5 + 1) ∧
    (seqRun 3).2 = (List.range 3).map (fun k : Nat => ((k : Int) + 1)) :=
  C6_incrementSequence ['5'] 5 3 (by rfl)

/-! ## SHA-256 (`crypto/sha256`, external collaborator) and the
`Database.CreateTable` encryption key derivation (C3) -/

/-- Modelled from the spec: SHA-256 (FIPS 180-4) over byte lists; the
repository calls `crypto/sha256` from the Go standard library.  The helper
definitions below are the standard compression function pieces; machine
words are naturals reduced modulo `2^32`. -/
def w32 (n : Nat) : Nat := n % 4294967296

def rotr32 (x r : Nat) : Nat := w32 ((x >>> r) ||| (x <<< (32 - r)))

def shaCh (x y z : Nat) : Nat := (x &&& y) ^^^ ((x ^^^ 4294967295) &&& z)

def shaMaj (x y z : Nat) : Nat := (x &&& y) ^^^ (x &&& z) ^^^ (y &&& z)

def bigSigma0 (x : Nat) : Nat := rotr32 x 2 ^^^ rotr32 x 13 ^^^ rotr32 x 22

def bigSigma1 (x : Nat) : Nat := rotr32 x 6 ^^^ rotr32 x 11 ^^^ rotr32 x 25

def smallSigma0 (x : Nat) : Nat := rotr32 x 7 ^^^ rotr32 x 18 ^^^ (x >>> 3)

def smallSigma1 (x : Nat) : Nat := rotr32 x 17 ^^^ rotr32 x 19 ^^^ (x >>> 10)

def sha256K : List Nat :=
  [1116352408, 1899447441, 3049323471, 3921009573, 961987163, 1508970993, 2453635748, 2870763221,
   3624381080, 310598401, 607225278, 1426881987, 1925078388, 2162078206, 2614888103, 3248222580,
   3835390401, 4022224774, 264347078, 604807628, 770255983, 1249150122, 1555081692, 1996064986,
   2554220882, 2821834349, 2952996808, 3210313671, 3336571891, 3584528711, 113926993, 338241895,
   666307205, 773529912, 1294757372, 1396182291, 1695183700, 1986661051, 2177026350, 2456956037,
   2730485921, 2820302411, 3259730800, 3345764771, 3516065817, 3600352804, 4094571909, 275423344,
   430227734, 506948616, 659060556, 883997877, 958139571, 1322822218, 1537002063, 1747873779,
   1955562222, 2024104815, 2227730452, 2361852424, 2428436474, 2756734187, 3204031479, 3329325298]

def sha256H0 : List Nat :=
  [1779033703, 3144134277, 1013904242, 2773480762, 1359893119, 2600822924, 528734635, 1541459225]

def sha256Pad (msg : List Nat) : List Nat :=
  let L := msg.length
  let zeros := (119 - (L % 64)) % 64
  let bitLen := 8 * L
  msg ++ [128] ++ List.replicate zeros 0 ++
    [(bitLen >>> 56) % 256, (bitLen >>> 48) % 256, (bitLen >>> 40) % 256, (bitLen >>> 32) % 256,
     (bitLen >>> 24) % 256, (bitLen >>> 16) % 256, (bitLen >>> 8) % 256, bitLen % 256]

def bytesToWords : List Nat → List Nat
  | a :: b :: c :: d :: rest => ((a <<< 24) ||| (b <<< 16) ||| (c <<< 8) ||| d) :: bytesToWords rest
  | _ => []

def sha256ExtendStep (ws : List Nat) : List Nat :=
  let n := ws.length
  ws ++ [w32 (smallSigma1 (ws.getD (n - 2) 0) + ws.getD (n - 7) 0 +
    smallSigma0 (ws.getD (n - 15) 0) + ws.getD (n - 16) 0)]

def sha256Schedule (block : List Nat) : List Nat :=
  (List.range 48).foldl (fun ws _ => sha256ExtendStep ws) block

def sha256Round (st : List Nat) (kw : Nat × Nat) : List Nat :=
  match st with
  | [a, b, c, d, e, f, g, h] =>
    let t1 := w32 (h + bigSigma1 e + shaCh e f g + kw.1 + kw.2)
    let t2 := w32 (bigSigma0 a + shaMaj a b c)
    [w32 (t1 + t2), a, b, c, w32 (d + t1), e, f, g]
  | _ => st

def sha256Block (h : List Nat) (block : List Nat) : List Nat :=
  let ws := sha256Schedule block
  let st := (sha256K.zip ws).foldl sha256Round h
  (h.zip st).map fun p => w32 (p.1 + p.2)

def sha256Blocks (h : List Nat) (ws : List Nat) : Nat → List Nat
  | 0 => h
  | n + 1 => sha256Blocks (sha256Block h (ws.take 16)) (ws.drop 16) n

def sha256 (msg : List Nat) : List Nat :=
  let ws := bytesToWords (sha256Pad msg)
  let hh := sha256Blocks sha256H0 ws (ws.length / 16)
  hh.flatMap fun w => [(w >>> 24) % 256, (w >>> 16) % 256, (w >>> 8) % 256, w % 256]

/-- The SHA-256 model agrees with the FIPS 180-4 test vector for the
message `"abc"` (digest `ba7816bf 8f01cfea 414140de 5dae2223 b00361a3
96177a9c b410ff61 f20015ad`, written here in decimal bytes). -/
theorem sha256_fips_vector : sha256 [97, 98, 99] =
    [186, 120, 22, 191, 143, 1, 207, 234, 65, 65, 64, 222, 93, 174, 34, 35,
     176, 3, 97, 163, 150, 23, 122, 156, 180, 16, 255, 97, 242, 0, 21, 173] := by
  decide

/-- The `HashedKey` field set by `Database.CreateTable`
(src/unnamed/part_001:595-607) when `encrypt` is true: the SHA-256 digest of
the user-supplied key material. -/
def createTableHashedKey (key : List Nat) : List Nat := sha256 key

/-- The `Nonce` field set by `Database.CreateTable`
(src/unnamed/part_001:609-611): starting from twelve zero bytes, the code
appends the last 12 digest bytes and converts the resulting 24-byte slice
back to `[12]byte` — a Go conversion that keeps the *first* 12 bytes. -/
def createTableNonce (key : List Nat) : List Nat :=
  let hashBytes := sha256 key
  let nonce : List Nat := List.replicate 12 0
  (nonce ++ hashBytes.drop (hashBytes.length - 12)).take 12

/-- **C3** (code bug).  The derived key is indeed the SHA-256 digest, but the
stored nonce is twelve zero bytes, not the last 12 bytes of the digest: the
slice-to-array conversion keeps the zero-filled prefix, contradicting the
code's own comment ("The nonce is 12 bytes of the end of the hash").
Evaluated at key material `"pw"` (bytes `[112, 119]`). -/
theorem C3_nonce_code_bug_eval :
    createTableHashedKey [112, 119] = sha256 [112, 119] ∧
    createTableNonce [112, 119] = List.replicate 12 0 ∧
    (sha256 [112, 119]).drop ((sha256 [112, 119]).length - 12) ≠
      List.replicate 12 0 := by
  refine ⟨rfl, by decide, by decide⟩

/-! ## ChaCha20 (`golang.org/x/crypto/chacha20`, external collaborator)
and `catalog.Encrypt` / `catalog.Decrypt` -/

/-- Modelled from the spec: ChaCha20 stream cipher (RFC 8439), called by the
repository through `golang.org/x/crypto/chacha20`; the cipher XORs the data
with a keystream generated from (key, nonce, block counter), counting blocks
from 0. -/
def rotl32 (x r : Nat) : Nat := w32 ((x <<< r) ||| (x >>> (32 - r)))

def chachaQR (st : List Nat) (a b c d : Nat) : List Nat :=
  let A := st.getD a 0
  let B := st.getD b 0
  let C := st.getD c 0
  let D := st.getD d 0
  let A := w32 (A + B)
  let D := rotl32 (D ^^^ A) 16
  let C := w32 (C + D)
  let B := rotl32 (B ^^^ C) 12
  let A := w32 (A + B)
  let D := rotl32 (D ^^^ A) 8
  let C := w32 (C + D)
  let B := rotl32 (B ^^^ C) 7
  (((st.set a A).set b B).set c C).set d D

def chachaDoubleRound (st : List Nat) : List Nat :=
  let st := chachaQR st 0 4 8 12
  let st := chachaQR st 1 5 9 13
  let st := chachaQR st 2 6 10 14
  let st := chachaQR st 3 7 11 15
  let st := chachaQR st 0 5 10 15
  let st := chachaQR st 1 6 11 12
  let st := chachaQR st 2 7 8 13
  chachaQR st 3 4 9 14

def bytesToWordsLE : List Nat → List Nat
  | a :: b :: c :: d :: rest => (a ||| (b <<< 8) ||| (c <<< 16) ||| (d <<< 24)) :: bytesToWordsLE rest
  | _ => []

def wordsToBytesLE (ws : List Nat) : List Nat :=
  ws.flatMap fun w => [w % 256, (w >>> 8) % 256, (w >>> 16) % 256, (w >>> 24) % 256]

def chachaInit (key nonce : List Nat) (counter : Nat) : List Nat :=
  [1634760805, 857760878, 2036477234, 1797285236] ++
    bytesToWordsLE key ++ [counter] ++ bytesToWordsLE nonce

def chachaBlock (key nonce : List Nat) (counter : Nat) : List Nat :=
  let st0 := chachaInit key nonce counter
  let st := (List.range 10).foldl (fun st _ => chachaDoubleRound st) st0
  wordsToBytesLE ((st0.zip st).map fun p => w32 (p.1 + p.2))

def chachaKeystream (key nonce : List Nat) (len : Nat) : List Nat :=
  (((List.range ((len + 63) / 64)).flatMap fun c => chachaBlock key nonce c).take len)

/-- The ChaCha20 block function agrees with the RFC 8439 §2.3.2 test vector
(key bytes `00..1f`, nonce `00 00 00 09 00 00 00 4a 00 00 00 00`, counter 1;
the expected serialized block, written here in decimal bytes). -/
theorem chachaBlock_rfc_vector :
    chachaBlock (List.range 32) [0, 0, 0, 9, 0, 0, 0, 74, 0, 0, 0, 0] 1 =
    [16, 241, 231, 228, 209, 59, 89, 21, 80, 15, 221, 31, 163, 32, 113, 196,
     199, 209, 244, 199, 51, 192, 104, 3, 4, 34, 170, 154, 195, 212, 108, 78,
     210, 130, 100, 70, 7, 159, 170, 9, 20, 194, 215, 5, 217, 139, 2, 162,
     181, 18, 156, 209, 222, 22, 78, 185, 203, 208, 131, 232, 162, 80, 60, 78] := by
  decide

/-- `catalog.Encrypt` (src/unnamed/part_001:2060-2072): ChaCha20-XOR the row
with the keystream for (key, nonce); the cipher constructor rejects key and
nonce material of the wrong size. -/
def Encrypt (key nonce row : List Nat) : Except String (List Nat) :=
  if key.length ≠ 32 then Except.error "chacha20: wrong key size"
  else if nonce.length ≠ 12 then Except.error "chacha20: wrong nonce size"
  else Except.ok (List.zipWith (fun b k => b ^^^ k) row (chachaKeystream key nonce row.length))

/-- `catalog.Decrypt` (src/unnamed/part_001:2074-2087): identical XOR pass. -/
def Decrypt (key nonce cipherRow : List Nat) : Except String (List Nat) :=
  if key.length ≠ 32 then Except.error "chacha20: wrong key size"
  else if nonce.length ≠ 12 then Except.error "chacha20: wrong nonce size"
  else Except.ok
    (List.zipWith (fun b k => b ^^^ k) cipherRow (chachaKeystream key nonce cipherRow.length))

theorem chachaQR_length (st : List Nat) (a b c d : Nat) :
    (chachaQR st a b c d).length = st.length := by
  simp [chachaQR]

theorem chachaDoubleRound_length (st : List Nat) :
    (chachaDoubleRound st).length = st.length := by
  simp [chachaDoubleRound, chachaQR_length]

theorem bytesToWordsLE_length (bs : List Nat) :
    (bytesToWordsLE bs).length = bs.length / 4 := by
  match bs with
  | a :: b :: c :: d :: rest =>
    rw [bytesToWordsLE]
    have := bytesToWordsLE_length rest
    simp only [List.length_cons, this]
    omega
  | [] => rfl
  | [a] => simp [bytesToWordsLE]
  | [a, b] => simp [bytesToWordsLE]
  | [a, b, c] => simp [bytesToWordsLE]

theorem wordsToBytesLE_length (ws : List Nat) :
    (wordsToBytesLE ws).length = 4 * ws.length := by
  induction ws with
  | nil => rfl
  | cons w ws ih =>
    simp only [wordsToBytesLE, List.flatMap_cons] at ih ⊢
    simp [ih]
    omega

theorem chachaBlock_length (key nonce : List Nat) (c : Nat)
    (hk : key.length = 32) (hn : nonce.length = 12) :
    (chachaBlock key nonce c).length = 64 := by
  have hinit : (chachaInit key nonce c).length = 16 := by
    simp [chachaInit, bytesToWordsLE_length, hk, hn]
  have hrounds : ∀ (rs : List Nat) (st : List Nat),
      (rs.foldl (fun st _ => chachaDoubleRound st) st).length = st.length := by
    intro rs
    induction rs with
    | nil => intro st; rfl
    | cons r rs ih =>
      intro st
      rw [List.foldl_cons, ih, chachaDoubleRound_length]
  rw [chachaBlock, wordsToBytesLE_length, List.length_map, List.length_zip,
    hrounds, hinit]
  omega

theorem chachaKeystream_length (key nonce : List Nat) (n : Nat)
    (hk : key.length = 32) (hn : nonce.length = 12) :
    (chachaKeystream key nonce n).length = n := by
  have hflat : ∀ l : List Nat,
      (l.flatMap fun c => chachaBlock key nonce c).length = 64 * l.length := by
    intro l
    induction l with
    | nil => rfl
    | cons c l ih =>
      rw [List.flatMap_cons, List.length_append, ih, chachaBlock_length key nonce c hk hn]
      simp
      omega
  rw [chachaKeystream, List.length_take, hflat, List.length_range]
  omega

theorem zipWith_xor_cancel (xs ks : List Nat) (h : ks.length = xs.length) :
    List.zipWith (fun b k => b ^^^ k)
      (List.zipWith (fun b k => b ^^^ k) xs ks) ks = xs := by
  induction xs generalizing ks with
  | nil => simp
  | cons x xs ih =>
    match ks with
    | [] => simp at h
    | k :: ks =>
      simp only [List.zipWith_cons_cons, List.cons.injEq]
      refine ⟨?_, ih ks (by simpa using h)⟩
      rw [Nat.xor_assoc, Nat.xor_self, Nat.xor_zero]

theorem encrypt_decrypt_cancel (key nonce x : List Nat)
    (hk : key.length = 32) (hn : nonce.length = 12) :
    ∃ c, Encrypt key nonce x = Except.ok c ∧ c.length = x.length ∧
      Decrypt key nonce c = Except.ok x := by
  have hks := chachaKeystream_length key nonce x.length hk hn
  have hlen : (List.zipWith (fun b k => b ^^^ k) x
      (chachaKeystream key nonce x.length)).length = x.length := by
    rw [List.length_zipWith, hks]
    omega
  refine ⟨_, ?_, hlen, ?_⟩
  · rw [Encrypt, if_neg (by omega), if_neg (by omega)]
  · rw [Decrypt, if_neg (by omega), if_neg (by omega), hlen]
    congr 1
    exact zipWith_xor_cancel x _ hks

/-! ## Row values and the row codec (`EncodeRow` / `decodeRow`) -/

/-- Go dynamic values as they occur in row maps after schema validation:
`int`, `string`, `bool`, `[]byte` (BINARY/BLOB columns after hex decoding),
`time.Time` (temporal columns, carried by their canonical string), `float64`
(NUMERIC-family columns, carried by the 64-bit IEEE-754 bit pattern of the
value — the exact payload `encoding/gob` serialises), and `nil`.  Spec §9
prescribes exactly such a tagged variant. -/
inductive Value where
  | vInt (n : Int)
  | vStr (s : String)
  | vBool (b : Bool)
  | vBytes (bs : List Nat)
  | vTime (s : String)
  | vFloat (bits : Nat)
  | vNull
  deriving DecidableEq, Repr

/-- A row mapping (column name → value), in insertion order. -/
abbrev Row := List (String × Value)

/-- Decimal digit bytes (0–9) of a positive number, most significant first;
the first argument is recursion fuel. -/
def decsAux : Nat → Nat → List Nat
  | 0, _ => []
  | fuel + 1, n => if n = 0 then [] else decsAux fuel (n / 10) ++ [n % 10]

def decs (n : Nat) : List Nat := if n = 0 then [0] else decsAux n n

def decsVal (ds : List Nat) : Nat := ds.foldl (fun acc d => acc * 10 + d) 0

/-- One number atom of the modelled codec: decimal digit bytes terminated by
the byte 10. -/
def encNat (n : Nat) : List Nat := decs n ++ [10]

def parseNat (bs : List Nat) : Option (Nat × List Nat) :=
  let ds := bs.takeWhile fun d => d < 10
  match bs.drop ds.length with
  | 10 :: rest => if ds.isEmpty then none else some (decsVal ds, rest)
  | _ => none

def encStrChars (cs : List Char) : List Nat := cs.flatMap fun c => encNat c.toNat

def encStr (s : String) : List Nat := encNat s.length ++ encStrChars s.data

def parseChars : Nat → List Nat → Option (List Char × List Nat)
  | 0, bs => some ([], bs)
  | k + 1, bs =>
    (parseNat bs).bind fun p =>
      (parseChars k p.2).bind fun q => some (Char.ofNat p.1 :: q.1, q.2)

def parseStr (bs : List Nat) : Option (String × List Nat) :=
  (parseNat bs).bind fun p =>
    (parseChars p.1 p.2).bind fun q => some (String.mk q.1, q.2)

def parseNatList : Nat → List Nat → Option (List Nat × List Nat)
  | 0, bs => some ([], bs)
  | k + 1, bs =>
    (parseNat bs).bind fun p =>
      (parseNatList k p.2).bind fun q => some (p.1 :: q.1, q.2)

def encValue : Value → List Nat
  | Value.vNull => [0]
  | Value.vBool b => [1, if b then 1 else 0]
  | Value.vInt i => if i < 0 then 2 :: 1 :: encNat i.natAbs else 2 :: 0 :: encNat i.natAbs
  | Value.vStr s => 3 :: encStr s
  | Value.vBytes bs => 4 :: (encNat bs.length ++ bs.flatMap encNat)
  | Value.vTime s => 5 :: encStr s
  | Value.vFloat bits => 6 :: encNat bits

def parseValue : List Nat → Option (Value × List Nat)
  | 0 :: rest => some (Value.vNull, rest)
  | 1 :: 0 :: rest => some (Value.vBool false, rest)
  | 1 :: 1 :: rest => some (Value.vBool true, rest)
  | 2 :: 0 :: rest =>
    (parseNat rest).bind fun p => some (Value.vInt (p.1 : Int), p.2)
  | 2 :: 1 :: rest =>
    (parseNat rest).bind fun p => some (Value.vInt (-(p.1 : Int)), p.2)
  | 3 :: rest =>
    (parseStr rest).bind fun p => some (Value.vStr p.1, p.2)
  | 4 :: rest =>
    (parseNat rest).bind fun p =>
      (parseNatList p.1 p.2).bind fun q => some (Value.vBytes q.1, q.2)
  | 5 :: rest =>
    (parseStr rest).bind fun p => some (Value.vTime p.1, p.2)
  | 6 :: rest =>
    (parseNat rest).bind fun p => some (Value.vFloat p.1, p.2)
  | _ => none

/-- `catalog.EncodeRow` (src/unnamed/part_001:1206-1219).  Modelled from the
spec: the source delegates to `encoding/gob`, an external deterministic
self-describing codec (§6.1) carrying keys and value tag discriminators;
modelled as the entry count followed by (key, tagged value) pairs. -/
def EncodeRow (row : Row) : List Nat :=
  encNat row.length ++ row.flatMap fun e => encStr e.1 ++ encValue e.2

def parseEntries : Nat → List Nat → Option (Row × List Nat)
  | 0, bs => some ([], bs)
  | k + 1, bs =>
    (parseStr bs).bind fun p =>
      (parseValue p.2).bind fun q =>
        (parseEntries k q.2).bind fun r => some ((p.1, q.1) :: r.1, r.2)

/-- `catalog.decodeRow` (src/unnamed/part_001:1221-1231): the inverse decode,
failing on bytes that are not a complete encoded row. -/
def decodeRow (bs : List Nat) : Option Row :=
  (parseNat bs).bind fun p =>
    (parseEntries p.1 p.2).bind fun q =>
      if q.2.isEmpty then some q.1 else none

theorem decsVal_append (a b : List Nat) :
    decsVal (a ++ b) = b.foldl (fun acc d => acc * 10 + d) (decsVal a) := by
  simp [decsVal, List.foldl_append]

theorem decsAux_spec (fuel : Nat) :
    ∀ n, 0 < n → n ≤ fuel →
      decsVal (decsAux fuel n) = n ∧ (∀ d ∈ decsAux fuel n, d < 10) ∧
        decsAux fuel n ≠ [] := by
  induction fuel with
  | zero => intro n h1 h2; omega
  | succ fuel ih =>
    intro n h1 h2
    rw [decsAux, if_neg (by omega)]
    have hmod : n % 10 < 10 := Nat.mod_lt _ (by norm_num)
    by_cases hdiv : n / 10 = 0
    · have hz : decsAux fuel 0 = [] := by cases fuel <;> simp [decsAux]
      rw [hdiv, hz]
      refine ⟨?_, ?_, by simp⟩
      · simp only [List.nil_append, decsVal, List.foldl]
        omega
      · intro d hd
        simp at hd
        omega
    · have hd1 : 0 < n / 10 := Nat.pos_of_ne_zero hdiv
      have hd2 : n / 10 ≤ fuel := by
        have := Nat.div_lt_self h1 (show 1 < 10 by norm_num)
        omega
      obtain ⟨hv, ha, _⟩ := ih (n / 10) hd1 hd2
      refine ⟨?_, ?_, by simp⟩
      · rw [decsVal_append]
        simp only [List.foldl]
        rw [hv]
        omega
      · intro d hd
        rw [List.mem_append] at hd
        rcases hd with hd | hd
        · exact ha d hd
        · simp at hd
          omega

theorem decs_val (n : Nat) : decsVal (decs n) = n := by
  unfold decs
  split
  · rename_i h; rw [h]; rfl
  · exact (decsAux_spec n n (by omega) (le_refl n)).1

theorem decs_digits (n : Nat) : ∀ d ∈ decs n, d < 10 := by
  unfold decs
  split
  · intro d hd; simp at hd; omega
  · exact (decsAux_spec n n (by omega) (le_refl n)).2.1

theorem decs_ne_nil (n : Nat) : decs n ≠ [] := by
  unfold decs
  split
  · simp
  · exact (decsAux_spec n n (by omega) (le_refl n)).2.2

theorem takeWhile_lt10_append (ds rest : List Nat) (h : ∀ d ∈ ds, d < 10) :
    (ds ++ 10 :: rest).takeWhile (fun d => d < 10) = ds := by
  induction ds with
  | nil => simp
  | cons d ds ih =>
    have hd : d < 10 := h d (List.mem_cons_self d ds)
    simp only [List.cons_append, List.takeWhile_cons]
    rw [if_pos (by simpa using hd), ih fun x hx => h x (List.mem_cons_of_mem _ hx)]

theorem parseNat_enc (n : Nat) (rest : List Nat) :
    parseNat (encNat n ++ rest) = some (n, rest) := by
  unfold parseNat encNat
  rw [List.append_assoc, List.cons_append, List.nil_append,
    takeWhile_lt10_append (decs n) rest (decs_digits n)]
  simp only [List.drop_left]
  rw [if_neg (by simp [List.isEmpty_iff, decs_ne_nil n])]
  rw [decs_val]

theorem parseChars_enc (cs : List Char) (rest : List Nat) :
    parseChars cs.length (encStrChars cs ++ rest) = some (cs, rest) := by
  induction cs with
  | nil => rfl
  | cons c cs ih =>
    simp only [encStrChars, List.flatMap_cons, List.length_cons, List.append_assoc]
    rw [parseChars, parseNat_enc]
    simp only [encStrChars] at ih
    simp [ih, Char.ofNat_toNat]

theorem parseStr_enc (s : String) (rest : List Nat) :
    parseStr (encStr s ++ rest) = some (s, rest) := by
  unfold parseStr encStr
  rw [List.append_assoc, parseNat_enc]
  have h : s.length = s.data.length := rfl
  simp only [Option.some_bind, h, parseChars_enc, Option.bind_some]

theorem parseNatList_enc (ns : List Nat) (rest : List Nat) :
    parseNatList ns.length (ns.flatMap encNat ++ rest) = some (ns, rest) := by
  induction ns with
  | nil => rfl
  | cons n ns ih =>
    simp only [List.flatMap_cons, List.length_cons, List.append_assoc]
    rw [parseNatList, parseNat_enc]
    simp [ih]

theorem parseValue_enc (v : Value) (rest : List Nat) :
    parseValue (encValue v ++ rest) = some (v, rest) := by
  cases v with
  | vNull => rfl
  | vBool b => cases b <;> rfl
  | vInt i =>
    by_cases hi : i < 0
    · simp only [encValue, if_pos hi, List.cons_append]
      simp only [parseValue, parseNat_enc, Option.some_bind]
      have hni : -((i.natAbs : Int)) = i := by omega
      rw [hni]
    · simp only [encValue, if_neg hi, List.cons_append]
      simp only [parseValue, parseNat_enc, Option.some_bind]
      have hni : ((i.natAbs : Int)) = i := by omega
      rw [hni]
  | vStr s =>
    simp only [encValue, List.cons_append]
    simp [parseValue, parseStr_enc]
  | vBytes bs =>
    simp only [encValue, List.cons_append, List.append_assoc]
    simp [parseValue, parseNat_enc, parseNatList_enc]
  | vTime s =>
    simp only [encValue, List.cons_append]
    simp [parseValue, parseStr_enc]
  | vFloat bits =>
    simp only [encValue, List.cons_append]
    simp [parseValue, parseNat_enc]

theorem parseEntries_enc (row : Row) (rest : List Nat) :
    parseEntries row.length ((row.flatMap fun e => encStr e.1 ++ encValue e.2) ++ rest) =
      some (row, rest) := by
  induction row with
  | nil => rfl
  | cons e row ih =>
    simp only [List.flatMap_cons, List.length_cons, List.append_assoc]
    rw [parseEntries, parseStr_enc]
    simp [parseValue_enc, ih]

theorem decodeRow_EncodeRow (row : Row) : decodeRow (EncodeRow row) = some row := by
  unfold decodeRow EncodeRow
  rw [parseNat_enc]
  have h := parseEntries_enc row []
  rw [List.append_nil] at h
  simp [h]

/-- **C7** (confirmed).  The row codec round-trips
(`decodeRow (EncodeRow row) = row` for any row of supported tagged values),
and for every 32-byte key, 12-byte nonce and byte string `x`, `Encrypt`
produces a ciphertext of the length of `x` with `Decrypt` recovering `x`.
(`EncodeRow`/`decodeRow` delegate to the external `encoding/gob` codec,
modelled here per spec §6.1.) -/
theorem C7_codec_roundtrip (row : Row) (key nonce x : List Nat)
    (hk : key.length = 32) (hn : nonce.length = 12) :
    decodeRow (EncodeRow row) = some row ∧
    ∃ c, Encrypt key nonce x = Except.ok c ∧ c.length = x.length ∧
      Decrypt key nonce c = Except.ok x :=
  ⟨decodeRow_EncodeRow row, encrypt_decrypt_cancel key nonce x hk hn⟩

/-- Witness for C7 at concrete inputs (the row holds an int, a string and a
float — the float carried by the IEEE-754 bit pattern of the value π). -/
theorem C7_codec_roundtrip_witness :
    decodeRow (EncodeRow [("a", Value.vInt 1), ("b", Value.vStr "x"),
        ("c", Value.vFloat 4614256656552045848)]) =
      some [("a", Value.vInt 1), ("b", Value.vStr "x"),
        ("c", Value.vFloat 4614256656552045848)] ∧
    ∃ c, Encrypt (List.range 32) (List.range 12) [7, 8, 9] = Except.ok c ∧
      c.length = [7, 8, 9].length ∧
      Decrypt (List.range 32) (List.range 12) c = Except.ok [7, 8, 9] :=
  C7_codec_roundtrip [("a", Value.vInt 1), ("b", Value.vStr "x"),
      ("c", Value.vFloat 4614256656552045848)]
    (List.range 32) (List.range 12) [7, 8, 9] (by simp) (by simp)

/-! ## Compression (`github.com/DataDog/zstd`, external collaborator) -/

/-- Modelled from the spec: ZSTD compression (`zstd.Compress`), an external
pure codec satisfying `Decompress (Compress x) = x`; modelled as framing the
payload behind the zstd magic bytes. -/
def Compress (row : List Nat) : Except String (List Nat) :=
  Except.ok ([40, 181, 47, 253] ++ row)

/-- Modelled from the spec: ZSTD decompression (`zstd.Decompress`); fails on
input that is not a compressed frame. -/
def Decompress (row : List Nat) : Except String (List Nat) :=
  match row with
  | 40 :: 181 :: 47 :: 253 :: rest => Except.ok rest
  | _ => Except.error "zstd: invalid input"

/-! ## `fmt.Sprintf("%v", ·)` stringification of dynamic values -/

/-- `fmt.Sprintf("%v", ·)` on a Go `[]byte`: decimal bytes, space separated,
in square brackets. -/
def stringifyBytes (bs : List Nat) : String :=
  "[" ++ String.intercalate " " (bs.map fun b => String.mk (itoaNat b)) ++ "]"

/-- The decimal rendering of a float64 used by the formatting verbs (`%v` in
the index keys, `%.14g` in the NUMERIC checks).  Reconstructing Go's decimal
float formatting from the IEEE-754 bit pattern is beyond the model: it is
represented by an injective digits-only placeholder (the decimal of the bit
pattern, hence never containing a decimal point).  No statement below depends
on the rendering of a float value. -/
def fmtFloatG14 (bits : Nat) : String := String.mk (itoaNat bits)

/-- `fmt.Sprintf("%v", ·)` on the dynamic values of the model.  (The rendering
of `time.Time` values includes a zone suffix; modelled as the canonical string
with the UTC suffix — no statement below depends on its exact shape.  Float
values render through the placeholder `fmtFloatG14`.) -/
def stringify : Value → String
  | Value.vInt n => String.mk (itoaInt n)
  | Value.vStr s => s
  | Value.vBool b => if b then "true" else "false"
  | Value.vBytes bs => stringifyBytes bs
  | Value.vTime s => s ++ " +0000 UTC"
  | Value.vFloat bits => fmtFloatG14 bits
  | Value.vNull => "<nil>"

/-- UTF-8-agnostic byte view of a string (`[]byte(s)`): the model's strings
are ASCII, where the byte view is the character codes. -/
def strBytes (s : String) : List Nat := s.data.map Char.toNat

/-- First-match association-list lookup (Go map reads). -/
def assocGet {α : Type} : List (String × α) → String → Option α
  | [], _ => none
  | e :: rest, k => if e.1 = k then some e.2 else assocGet rest k

/-! ## B-tree and pager (external collaborators, §6.2–§6.3) -/

/-- §6.3 B-tree contract (`ariasql/storage/btree.BTree`): a map from string
keys to lists of values; `Put` appends a value under the key, `Get` returns
the entry, `Remove` deletes a single occurrence of a value. -/
abbrev BTreeMap := List (String × List String)

def btreeGet (t : BTreeMap) (key : String) : Option (List String) :=
  assocGet t key

def btreePut (t : BTreeMap) (key v : String) : BTreeMap :=
  if (btreeGet t key).isSome then
    t.map fun e => if e.1 = key then (e.1, e.2 ++ [v]) else e
  else t ++ [(key, [v])]

def btreeRemove (t : BTreeMap) (key v : String) : BTreeMap :=
  t.map fun e => if e.1 = key then (e.1, e.2.erase v) else e

/-- §6.2 pager contract (`ariasql/storage/btree.Pager`): append-only page
store addressed by row id, with a deleted-page list. -/
structure Pager where
  pages : List (List Nat)
  deleted : List Int
  deriving DecidableEq, Repr

def pagerWrite (p : Pager) (bs : List Nat) : Pager × Int :=
  ({ p with pages := p.pages ++ [bs] }, (p.pages.length : Int))

def pagerGetPage (p : Pager) (rowId : Int) : Except String (List Nat) :=
  if 0 ≤ rowId ∧ rowId < (p.pages.length : Int) then
    Except.ok (p.pages.getD rowId.toNat [])
  else Except.error "page not found"

def pagerWriteTo (p : Pager) (rowId : Int) (bs : List Nat) : Except String Pager :=
  if 0 ≤ rowId ∧ rowId < (p.pages.length : Int) then
    Except.ok { p with pages := p.pages.set rowId.toNat bs }
  else Except.error "page not found"

def pagerDeletePage (p : Pager) (rowId : Int) : Except String Pager :=
  if 0 ≤ rowId ∧ rowId < (p.pages.length : Int) then
    Except.ok { p with deleted := p.deleted ++ [rowId] }
  else Except.error "page not found"

/-! ## Schema data model (`catalog.ColumnDefinition`, `catalog.Index`,
`catalog.Table`, `catalog.Database`) -/

/-- `catalog.Reference` — foreign-key target. -/
structure Reference where
  TableName : String
  ColumnName : String
  deriving DecidableEq, Repr

/-- The sentinel default kinds registered with the codec (spec §3, §6.1)
together with literal defaults. -/
inductive DefaultValue where
  | dLit (v : Value)
  | dSysDate
  | dSysTime
  | dSysTimestamp
  | dGenUUID
  deriving DecidableEq, Repr

/-- `catalog.ColumnDefinition`.  The opaque `Check` constraint (not
interpreted by this layer) is omitted from the model. -/
structure ColumnDefinition where
  DataType : String
  NotNull : Bool := false
  Sequence : Bool := false
  Unique : Bool := false
  Length : Nat := 0
  Scale : Nat := 0
  Precision : Nat := 0
  References : Option Reference := none
  Default : Option DefaultValue := none
  deriving DecidableEq, Repr

/-- `catalog.Index` — name, covered columns, unique flag, owned B-tree. -/
structure Index where
  Name : String
  Columns : List String
  Unique : Bool
  btree : BTreeMap
  deriving DecidableEq, Repr

/-- `catalog.Table` — schema, pager, sequence file content, indexes, and the
optional compression/encryption configuration. -/
structure Table where
  Name : String
  Indexes : List (String × Index)
  Rows : Pager
  TableSchema : List (String × ColumnDefinition)
  SequenceFile : List Char
  Compress : Bool := false
  Encrypt : Bool := false
  HashedKey : List Nat := []
  Nonce : List Nat := []
  deriving DecidableEq, Repr

/-- `catalog.Database` — the table map (procedures are not needed by any
claim below). -/
structure Database where
  Name : String
  Tables : List (String × Table)
  deriving DecidableEq, Repr

/-- `Database.GetTable` (src/unnamed/part_001:661-664). -/
def GetTable (db : Database) (tableName : String) : Option Table :=
  assocGet db.Tables tableName

/-- `Table.CheckIndexedColumn` (src/unnamed/part_001:1358-1371): first index
covering the column whose unique flag equals `unique`. -/
def CheckIndexedColumn (tbl : Table) (column : String) (unique : Bool) : Option Index :=
  (tbl.Indexes.find? fun ni =>
    ni.2.Columns.contains column && ni.2.Unique == unique).map Prod.snd

/-! ## External validators of the `ariasql/shared` package
(repository code not under src/): modelled from the spec -/

/-- `strings.ToUpper` over the ASCII range, list-based (the standard library
`String.map` does not reduce in proofs). -/
def goToUpper (s : String) : String :=
  String.mk (s.data.map fun c =>
    if Char.ofNat 97 ≤ c ∧ c ≤ Char.ofNat 122 then Char.ofNat (c.toNat - 32) else c)

/-- Modelled from the spec: `shared.IsValidDataType` — membership in the
closed data-type set (§4.2), case-insensitive. -/
def IsValidDataType (s : String) : Bool :=
  ["INT", "INTEGER", "SMALLINT", "CHAR", "CHARACTER", "FLOAT", "DOUBLE",
   "DECIMAL", "DEC", "REAL", "NUMERIC", "DATE", "TIME", "TIMESTAMP",
   "DATETIME", "UUID", "BINARY", "BOOLEAN", "BOOL", "TEXT", "BLOB"].contains
    (goToUpper s)

/-- Modelled from the spec: `shared.IsValidDateFormat` — canonical
`YYYY-MM-DD`. -/
def isValidDateFormat (s : String) : Bool :=
  match s.data with
  | [y1, y2, y3, y4, d5, m1, m2, d8, d1, d2] =>
    [y1, y2, y3, y4, m1, m2, d1, d2].all isDecDigit && d5 = Char.ofNat 45 &&
      d8 = Char.ofNat 45
  | _ => false

/-- Modelled from the spec: `shared.IsValidTimeFormat` — canonical
`HH:MM:SS`. -/
def isValidTimeFormat (s : String) : Bool :=
  match s.data with
  | [h1, h2, c3, m1, m2, c6, s1, s2] =>
    [h1, h2, m1, m2, s1, s2].all isDecDigit && c3 = Char.ofNat 58 &&
      c6 = Char.ofNat 58
  | _ => false

/-- Modelled from the spec: `shared.IsValidDateTimeFormat` — canonical
`YYYY-MM-DD HH:MM:SS`. -/
def isValidDateTimeFormat (s : String) : Bool :=
  match s.data.splitOn (Char.ofNat 32) with
  | [d, t] => isValidDateFormat (String.mk d) && isValidTimeFormat (String.mk t)
  | _ => false

/-- Modelled from the spec: `encoding/hex.DecodeString` digit value. -/
def hexDigitVal (c : Char) : Option Nat :=
  if (Char.ofNat 48) ≤ c ∧ c ≤ (Char.ofNat 57) then some (c.toNat - 48)
  else if (Char.ofNat 97) ≤ c ∧ c ≤ (Char.ofNat 102) then some (c.toNat - 87)
  else if (Char.ofNat 65) ≤ c ∧ c ≤ (Char.ofNat 70) then some (c.toNat - 55)
  else none

def hexDecodeChars : List Char → Option (List Nat)
  | [] => some []
  | c1 :: c2 :: rest =>
    match hexDigitVal c1, hexDigitVal c2, hexDecodeChars rest with
    | some hi, some lo, some bs => some ((hi * 16 + lo) :: bs)
    | _, _, _ => none
  | _ => none

/-- Modelled from the spec: `encoding/hex.DecodeString` — pairs of hex digits
to bytes, failing on odd length or non-hex characters. -/
def hexDecode (s : String) : Option (List Nat) := hexDecodeChars s.data

/-- Modelled from the spec: UUID textual validity as checked by the external
`github.com/google/uuid` parser — canonical 8-4-4-4-12 hex groups. -/
def isValidUUIDStr (s : String) : Bool :=
  match s.data.splitOn (Char.ofNat 45) with
  | [a, b, c, d, e] =>
    a.length == 8 && b.length == 4 && c.length == 4 && d.length == 4 &&
      e.length == 12 &&
      (a ++ b ++ c ++ d ++ e).all fun ch => (hexDigitVal ch).isSome
  | _ => false

/-- Modelled from the spec: a fresh UUID from `uuid.New().String()`; the
external generator is nondeterministic — modelled as a fixed canonical
value (no claim below depends on it). -/
def genUUIDStr : String := "00000000-0000-4000-8000-000000000000"

/-- `strings.TrimSuffix(strings.TrimPrefix(s, "'"), "'")` as used by the
schema validator: strip one leading and one trailing single quote. -/
def trimQuotes (s : String) : String :=
  let cs := s.data
  let cs1 := match cs with
    | c :: r => if c = Char.ofNat 39 then r else c :: r
    | [] => []
  let cs2 := match cs1.getLast? with
    | some c => if c = Char.ofNat 39 then cs1.dropLast else cs1
    | none => cs1
  String.mk cs2

/-! ## `Table.insert` and friends (src/unnamed/part_001:749-1203) -/

/-- Modelled from the spec: `time.Now()` rendered canonically — the external
clock is nondeterministic; modelled as a fixed value (no claim below depends
on it). -/
def sysNowStr : String := "0001-01-01 00:00:00"

/-- Go `row[colName]` (missing keys read as `nil` where the source reads the
map without the `ok` flag). -/
def rowGet (row : Row) (colName : String) : Option Value := assocGet row colName

/-- Assoc-list update of a row value (Go `row[colName] = v`). -/
def rowSet (row : Row) (colName : String) (v : Value) : Row :=
  if (rowGet row colName).isSome then
    row.map fun e => if e.1 = colName then (e.1, v) else e
  else row ++ [(colName, v)]

/-- Go interface equality `decoded[colName] == row[colName]`: values of
distinct dynamic types compare unequal; two `[]byte` operands make the
runtime panic (identical uncomparable dynamic type).  (Two float values
compare by bit pattern here, which identifies equal NaN payloads where Go's
`==` would not; no statement below compares float values.) -/
def goValueEq (a b : Value) : Except String Bool :=
  match a, b with
  | Value.vBytes _, Value.vBytes _ =>
    Except.error "panic: runtime error: comparing uncomparable type []uint8"
  | _, _ => Except.ok (a == b)

/-- Outcome of the data-type switch for one column: `proceed` falls through
to the uniqueness/foreign-key checks of the column, `skip` is a Go `continue`
to the next column. -/
inductive ColOutcome where
  | proceed (tbl : Table) (row : Row)
  | skip (tbl : Table) (row : Row)
  deriving Repr

/-- The `uuid.Parse` tail of the UUID arm (src/unnamed/part_001:836-840):
the value must be a string (a non-string value makes the type assertion
panic) and must parse as a UUID. -/
def uuidParseStep (tbl : Table) (colName : String) (row : Row) :
    Except String ColOutcome :=
  match (rowGet row colName).getD Value.vNull with
  | Value.vStr s =>
    if isValidUUIDStr s then Except.ok (ColOutcome.proceed tbl row)
    else Except.error (s ++ " is not a valid UUID")
  | _ => Except.error "panic: interface conversion: interface is not string"

/-- The `TEXT` arm of the data-type switch of `Table.insert`
(src/unnamed/part_001:787-793). -/
def insertColTypeText (tbl : Table) (colName : String)
    (colDef : ColumnDefinition) (row : Row) (v : Value) : Except String ColOutcome :=
  match v with
  | Value.vStr _ => Except.ok (ColOutcome.proceed tbl row)
  | _ => Except.error ("column " ++ colName ++ " is not a string")

/-- The `BOOL`/`BOOLEAN` arm (src/unnamed/part_001:1027-1032). -/
def insertColTypeBool (tbl : Table) (colName : String)
    (colDef : ColumnDefinition) (row : Row) (v : Value) : Except String ColOutcome :=
  match v with
  | Value.vBool _ => Except.ok (ColOutcome.proceed tbl row)
  | _ => Except.error ("column " ++ colName ++ " is not a boolean")

/-- The `BLOB` arm (src/unnamed/part_001:1013-1025): hex-decode the string
value and replace it by the decoded bytes. -/
def insertColTypeBlob (tbl : Table) (colName : String)
    (colDef : ColumnDefinition) (row : Row) (v : Value) : Except String ColOutcome :=
  match v with
  | Value.vStr s =>
    match hexDecode s with
    | some bs => Except.ok (ColOutcome.proceed tbl (rowSet row colName (Value.vBytes bs)))
    | none => Except.error ("column " ++ colName ++ " is not a valid binary")
  | _ => Except.error ("column " ++ colName ++ " is not a string")

/-- The `BINARY` arm (src/unnamed/part_001:994-1011): length check against
the declared length, then hex-decode. -/
def insertColTypeBinary (tbl : Table) (colName : String)
    (colDef : ColumnDefinition) (row : Row) (v : Value) : Except String ColOutcome :=
  match v with
  | Value.vStr s =>
    if s.length > colDef.Length then
      Except.error ("column " ++ colName ++ " is too long")
    else
      match hexDecode s with
      | some bs => Except.ok (ColOutcome.proceed tbl (rowSet row colName (Value.vBytes bs)))
      | none => Except.error ("column " ++ colName ++ " is not a valid binary")
  | _ => Except.error ("column " ++ colName ++ " is not a string")

/-- The `UUID` arm (src/unnamed/part_001:820-851): a NOT NULL UUID column
always errors (spec §9 gap); a GEN_UUID default overwrites the value, other
defaults skip; otherwise the current value must parse as a UUID. -/
def insertColTypeUUID (tbl : Table) (colName : String)
    (colDef : ColumnDefinition) (row : Row) (v : Value) : Except String ColOutcome :=
  if colDef.NotNull then Except.error ("column " ++ colName ++ " is not a string")
  else
    match colDef.Default with
    | some d =>
      if d = DefaultValue.dGenUUID then
        uuidParseStep tbl colName (rowSet row colName (Value.vStr genUUIDStr))
      else Except.ok (ColOutcome.skip tbl row)
    | none => uuidParseStep tbl colName row

/-- The `DATETIME`/`TIMESTAMP` arm (src/unnamed/part_001:883-941): reformat
the literal by slicing, validate, store as a time value; non-strings fall to
the NOT NULL check and the SYS defaults. -/
def insertColTypeDatetime (tbl : Table) (colName : String)
    (colDef : ColumnDefinition) (row : Row) (v : Value) : Except String ColOutcome :=
  match v with
  | Value.vStr s0 =>
    let s := trimQuotes s0
    let cs := s.data
    if cs.length < 15 then
      Except.error "panic: runtime error: slice bounds out of range"
    else
      let datePart := String.mk (cs.take 10)
      let timePart := cs.drop 11
      let hours := String.mk (timePart.take 2)
      let minutes := String.mk ((timePart.drop 2).take 2)
      let seconds := String.mk (timePart.drop 4)
      let formatted := datePart ++ " " ++ hours ++ ":" ++ minutes ++ ":" ++ seconds
      if isValidDateTimeFormat formatted then
        Except.ok (ColOutcome.proceed tbl (rowSet row colName (Value.vTime formatted)))
      else Except.error ("column " ++ colName ++ " is not a valid datetime")
  | _ =>
    if colDef.NotNull then Except.error ("column " ++ colName ++ " is not a string")
    else
      match colDef.Default with
      | some DefaultValue.dSysDate =>
        Except.ok (ColOutcome.skip tbl (rowSet row colName (Value.vTime sysNowStr)))
      | some DefaultValue.dSysTime =>
        Except.ok (ColOutcome.skip tbl (rowSet row colName (Value.vTime sysNowStr)))
      | some DefaultValue.dSysTimestamp =>
        Except.ok (ColOutcome.skip tbl (rowSet row colName (Value.vTime sysNowStr)))
      | _ => Except.ok (ColOutcome.skip tbl row)

/-- The `DATE` arm (src/unnamed/part_001:853-881). -/
def insertColTypeDate (tbl : Table) (colName : String)
    (colDef : ColumnDefinition) (row : Row) (v : Value) : Except String ColOutcome :=
  match v with
  | Value.vStr s0 =>
    if isValidDateFormat (trimQuotes s0) then
      Except.ok (ColOutcome.proceed tbl (rowSet row colName (Value.vTime (trimQuotes s0))))
    else Except.error ("column " ++ colName ++ " is not a valid date")
  | _ =>
    if colDef.NotNull then Except.error ("column " ++ colName ++ " is not a string")
    else Except.ok (ColOutcome.skip tbl row)

/-- The `TIME` arm (src/unnamed/part_001:943-968). -/
def insertColTypeTime (tbl : Table) (colName : String)
    (colDef : ColumnDefinition) (row : Row) (v : Value) : Except String ColOutcome :=
  match v with
  | Value.vStr s =>
    if isValidTimeFormat s then
      Except.ok (ColOutcome.proceed tbl (rowSet row colName (Value.vTime s)))
    else Except.error ("column " ++ colName ++ " is not a valid time")
  | _ =>
    if colDef.NotNull then Except.error ("column " ++ colName ++ " is not a string")
    else Except.ok (ColOutcome.skip tbl row)

/-- The `CHARACTER`/`CHAR` arm (src/unnamed/part_001:970-992). -/
def insertColTypeChar (tbl : Table) (colName : String)
    (colDef : ColumnDefinition) (row : Row) (v : Value) : Except String ColOutcome :=
  match v with
  | Value.vStr s =>
    if (trimQuotes s).length > colDef.Length then
      Except.error ("column " ++ colName ++ " is too long")
    else Except.ok (ColOutcome.proceed tbl row)
  | Value.vNull =>
    if colDef.NotNull then Except.ok (ColOutcome.proceed tbl row)
    else Except.ok (ColOutcome.skip tbl row)
  | _ =>
    if colDef.NotNull then Except.error ("column " ++ colName ++ " is not a string")
    else Except.ok (ColOutcome.skip tbl row)

/-- The `NUMERIC`/`DECIMAL`/`DEC`/`FLOAT`/`DOUBLE`/`REAL` arm
(src/unnamed/part_001:958-997): a float value is formatted with `%.14g` and,
when the rendering carries a fractional part, checked against the declared
scale and precision, then falls through to the uniqueness checks; a non-float
non-nil value errs when the column is NOT NULL, a nil value under NOT NULL
reaches the type assertion and panics, and otherwise the column is skipped.
(The placeholder rendering `fmtFloatG14` never contains a decimal point, so
the scale/precision branches — which no claim mentions — do not fire.) -/
def insertColTypeNumeric (tbl : Table) (colName : String)
    (colDef : ColumnDefinition) (row : Row) (v : Value) : Except String ColOutcome :=
  match v with
  | Value.vFloat bits =>
    let parts := (fmtFloatG14 bits).splitOn "."
    if parts.length > 1 then
      if colDef.Scale > 0 ∧ (parts.getD 1 "").length > colDef.Scale then
        Except.error ("column " ++ colName ++ " has too many digits after the decimal point")
      else if colDef.Precision > 0 ∧
          (parts.getD 0 "").length + (parts.getD 1 "").length > colDef.Precision then
        Except.error ("column " ++ colName ++ " is too large")
      else Except.ok (ColOutcome.proceed tbl row)
    else Except.ok (ColOutcome.proceed tbl row)
  | Value.vNull =>
    if colDef.NotNull then
      Except.error "panic: interface conversion: interface is nil, not float64"
    else Except.ok (ColOutcome.skip tbl row)
  | _ =>
    if colDef.NotNull then
      Except.error ("column " ++ colName ++ " is not a floating point number")
    else Except.ok (ColOutcome.skip tbl row)

/-- The `INT`/`INTEGER`/`SMALLINT` arm (src/unnamed/part_001:794-818 and
1098-1112 range checks): sequence columns draw a fresh value from the
sequence file (overwriting any supplied value), then the stored value must
be an int within range. -/
def insertColTypeInt (tbl : Table) (colName : String)
    (colDef : ColumnDefinition) (row : Row) (dt : String) : Except String ColOutcome :=
  let step1 : Except String (Table × Row) :=
    if colDef.Sequence then
      match CheckIndexedColumn tbl colName true with
      | none => Except.error ("sequence column " ++ colName ++ " must be unique")
      | some _ =>
        match IncrementSequence tbl.SequenceFile with
        | Except.error e => Except.error e
        | Except.ok p =>
          Except.ok ({ tbl with SequenceFile := p.1 },
            rowSet row colName (Value.vInt p.2))
    else Except.ok (tbl, row)
  match step1 with
  | Except.error e => Except.error e
  | Except.ok (tbl, row) =>
    match (rowGet row colName).getD Value.vNull with
    | Value.vInt n =>
      if (dt = "INT" ∨ dt = "INTEGER") ∧ n > 2147483647 then
        Except.error ("column " ++ colName ++ " is too large for INT/INTEGER")
      else if dt = "SMALLINT" ∧ n > 32767 then
        Except.error ("column " ++ colName ++ " is too large for SMALLINT")
      else Except.ok (ColOutcome.proceed tbl row)
    | _ => Except.error ("column " ++ colName ++ " is not an int")

/-- The later arms of the data-type switch (`DATE` through the final
`default`), split off only to keep the dispatch shallow. -/
def insertColTypeTail (tbl : Table) (colName : String)
    (colDef : ColumnDefinition) (row : Row) (dt : String) (v : Value) :
    Except String ColOutcome :=
  if dt = "DATE" then insertColTypeDate tbl colName colDef row v
  else if dt = "TIME" then insertColTypeTime tbl colName colDef row v
  else if dt = "CHARACTER" ∨ dt = "CHAR" then insertColTypeChar tbl colName colDef row v
  else if dt = "NUMERIC" ∨ dt = "DECIMAL" ∨ dt = "DEC" ∨ dt = "FLOAT" ∨
      dt = "DOUBLE" ∨ dt = "REAL" then insertColTypeNumeric tbl colName colDef row v
  else if dt = "INT" ∨ dt = "INTEGER" ∨ dt = "SMALLINT" then
    insertColTypeInt tbl colName colDef row dt
  else Except.error ("invalid data type " ++ colDef.DataType)

/-- The data-type switch of `Table.insert` (src/unnamed/part_001:785-1044)
for one column, dispatching on the upper-cased declared type.  The table
changes only through `IncrementSequence`; the row changes where the source
reassigns `row[colName]`. -/
def insertColTypeCore (tbl : Table) (colName : String)
    (colDef : ColumnDefinition) (row : Row) (dt : String) (v : Value) :
    Except String ColOutcome :=
  if dt = "TEXT" then insertColTypeText tbl colName colDef row v
  else if dt = "BOOL" ∨ dt = "BOOLEAN" then insertColTypeBool tbl colName colDef row v
  else if dt = "BLOB" then insertColTypeBlob tbl colName colDef row v
  else if dt = "BINARY" then insertColTypeBinary tbl colName colDef row v
  else if dt = "UUID" then insertColTypeUUID tbl colName colDef row v
  else if dt = "DATETIME" ∨ dt = "TIMESTAMP" then
    insertColTypeDatetime tbl colName colDef row v
  else insertColTypeTail tbl colName colDef row dt v

/-- The data-type switch applied at the values the source computes up front:
the upper-cased declared type and the current value of the column. -/
def insertColType (tbl : Table) (colName : String)
    (colDef : ColumnDefinition) (row : Row) : Except String ColOutcome :=
  insertColTypeCore tbl colName colDef row (goToUpper colDef.DataType)
    ((rowGet row colName).getD Value.vNull)

/-- The scan over `key.V` of the uniqueness check
(src/unnamed/part_001:1065-1095): parse each stored row id, fetch and decode
the page (raw, without the decrypt/decompress passes), and compare the
decoded column value with the new value via Go interface equality. -/
def uniqueCheckLoop (rows : Pager) (colName : String) (v : Value) :
    List String → Except String Unit
  | [] => Except.ok ()
  | ridStr :: rest =>
    match atoiChars ridStr.data with
    | none => Except.error "problem getting unique rows"
    | some id =>
      match pagerGetPage rows id with
      | Except.error _ => Except.error "problem getting unique rows"
      | Except.ok r =>
        match decodeRow r with
        | none => Except.error "problem getting unique rows"
        | some decoded =>
          match goValueEq ((rowGet decoded colName).getD Value.vNull) v with
          | Except.error e => Except.error e
          | Except.ok true =>
            Except.error ("row with " ++ colName ++ " " ++ stringify v ++ " already exists")
          | Except.ok false => uniqueCheckLoop rows colName v rest

/-- The unique-column check of `Table.insert` (src/unnamed/part_001:1046-1097):
look up the B-tree under the *plain* stringified value and inspect the rows
stored under it. -/
def insertUniqueCheck (tbl : Table) (colName : String) (colDef : ColumnDefinition)
    (row : Row) : Except String Unit :=
  if colDef.Unique then
    if ¬colDef.Sequence ∧ (rowGet row colName).isNone then
      Except.error ("column " ++ colName ++ " cannot be null")
    else
      match CheckIndexedColumn tbl colName true with
      | none => Except.error ("problem getting unique rows for column " ++ colName)
      | some idx =>
        let v := (rowGet row colName).getD Value.vNull
        match btreeGet idx.btree (stringify v) with
        | none => Except.ok ()
        | some vals => uniqueCheckLoop tbl.Rows colName v vals
  else Except.ok ()

/-- The foreign-key check of `Table.insert` (src/unnamed/part_001:1099-1122):
existence of the referenced table and of a unique index covering the local
column name; no value-level check (spec §9 gap 6). -/
def insertRefsCheck (db : Database) (colName : String) (colDef : ColumnDefinition)
    (row : Row) : Except String Unit :=
  match colDef.References with
  | none => Except.ok ()
  | some ref =>
    if (rowGet row colName).isNone then
      Except.error ("column " ++ colName ++ " cannot be null")
    else
      match GetTable db ref.TableName with
      | none => Except.error ("foreign key constraint violation on column " ++ colName)
      | some refTbl =>
        match CheckIndexedColumn refTbl colName true with
        | none => Except.error ("foreign key constraint violation on column " ++ colName)
        | some _ => Except.ok ()

/-- The schema loop of `Table.insert` (src/unnamed/part_001:772-1124), over
the column definitions in insertion order. -/
def insertColsLoop (db : Database) :
    List (String × ColumnDefinition) → Table → Row → Except String (Table × Row)
  | [], tbl, row => Except.ok (tbl, row)
  | (colName, colDef) :: rest, tbl, row =>
    if colDef.NotNull ∧ ¬colDef.Sequence ∧ (rowGet row colName).isNone then
      Except.error ("column " ++ colName ++ " cannot be null")
    else
      match insertColType tbl colName colDef
          (if (rowGet row colName).isNone then row ++ [(colName, Value.vNull)] else row) with
      | Except.error e => Except.error e
      | Except.ok (ColOutcome.skip tbl row) => insertColsLoop db rest tbl row
      | Except.ok (ColOutcome.proceed tbl row) =>
        match insertUniqueCheck tbl colName colDef row with
        | Except.error e => Except.error e
        | Except.ok () =>
          match insertRefsCheck db colName colDef row with
          | Except.error e => Except.error e
          | Except.ok () => insertColsLoop db rest tbl row

/-- `Table.writeRow` (src/unnamed/part_001:1168-1203): encode, optionally
compress, optionally encrypt, append to the pager. -/
def writeRow (tbl : Table) (row : Row) : Except String (Table × Int) :=
  let encoded := EncodeRow row
  match (if tbl.Compress then Compress encoded else Except.ok encoded) with
  | Except.error e => Except.error e
  | Except.ok encoded =>
    match (if tbl.Encrypt then Encrypt tbl.HashedKey tbl.Nonce encoded else Except.ok encoded) with
    | Except.error e => Except.error e
    | Except.ok encoded =>
      let p := pagerWrite tbl.Rows encoded
      Except.ok ({ tbl with Rows := p.1 }, p.2)

/-- The per-column index insertion of `Table.insert`
(src/unnamed/part_001:1133-1158): for each index covering the column, the
mutable `val` is compressed and/or encrypted *in the loop*, so a second
covering index sees (and re-transforms) the already transformed value; the
encryption arm type-asserts `val.([]byte)` and panics on other values. -/
def indexPutCol (compress encrypt : Bool) (hk nk : List Nat) (rowId : Int)
    (col : String) : List (String × Index) → Value → Except String (List (String × Index))
  | [], _ => Except.ok []
  | (name, idx) :: rest, val =>
    if idx.Columns.contains col then
      match (if compress then
          (match Compress (strBytes (stringify val)) with
            | Except.ok bs => Except.ok (Value.vBytes bs)
            | Except.error e => Except.error e)
        else Except.ok val) with
      | Except.error e => Except.error e
      | Except.ok val =>
        match (if encrypt then
            (match val with
              | Value.vBytes bs =>
                (match Encrypt hk nk bs with
                  | Except.ok c => Except.ok (Value.vBytes c)
                  | Except.error e => Except.error e)
              | _ => Except.error "panic: interface conversion: interface is not a byte slice")
          else Except.ok val) with
        | Except.error e => Except.error e
        | Except.ok val =>
          let idx2 := { idx with
            btree := btreePut idx.btree (stringify val) (String.mk (itoaInt rowId)) }
          match indexPutCol compress encrypt hk nk rowId col rest val with
          | Except.error e => Except.error e
          | Except.ok rest2 => Except.ok ((name, idx2) :: rest2)
    else
      match indexPutCol compress encrypt hk nk rowId col rest val with
      | Except.error e => Except.error e
      | Except.ok rest2 => Except.ok ((name, idx) :: rest2)

/-- The row loop of the index insertion (src/unnamed/part_001:1133-1158). -/
def indexPutAll (rowId : Int) : Table → Row → Except String Table
  | tbl, [] => Except.ok tbl
  | tbl, (col, val) :: rest =>
    match indexPutCol tbl.Compress tbl.Encrypt tbl.HashedKey tbl.Nonce rowId col
        tbl.Indexes val with
    | Except.error e => Except.error e
    | Except.ok idxs => indexPutAll rowId { tbl with Indexes := idxs } rest

/-- `Table.insert` (src/unnamed/part_001:769-1161): schema validation and
checks per column, then `writeRow`, then index maintenance.  Returns the
mutated table, the row id, and the (mutated) row. -/
def insertRow (db : Database) (tbl : Table) (row : Row) :
    Except String (Table × Int × Row) :=
  match insertColsLoop db tbl.TableSchema tbl row with
  | Except.error e => Except.error e
  | Except.ok (tbl, row) =>
    match writeRow tbl row with
    | Except.error e => Except.error e
    | Except.ok (tbl, rowId) =>
      match indexPutAll rowId tbl row with
      | Except.error e => Except.error e
      | Except.ok tbl => Except.ok (tbl, rowId, row)

/-- `Table.Insert` (src/unnamed/part_001:749-767): the batch wrapper —
insert the rows in input order, returning on the first failure; the table
state (pages, indexes, sequence file) keeps the rows already inserted. -/
def Insert (db : Database) : Table → List Row → Table × Except String (List Int × List Row)
  | tbl, [] => (tbl, Except.ok ([], []))
  | tbl, row :: rest =>
    match insertRow db tbl row with
    | Except.error e => (tbl, Except.error e)
    | Except.ok p =>
      match Insert db p.1 rest with
      | (tbl2, Except.ok q) => (tbl2, Except.ok (p.2.1 :: q.1, p.2.2 :: q.2))
      | (tbl2, Except.error e) => (tbl2, Except.error e)

/-- `Table.DeleteRow` (src/unnamed/part_001:1385-1419): fetch and decode the
page (raw — without the decrypt/decompress passes), remove the *plain*
stringified (value, row id) pairs from every covering index, then mark the
page deleted. -/
def DeleteRow (tbl : Table) (rowId : Int) : Table × Except String Unit :=
  match pagerGetPage tbl.Rows rowId with
  | Except.error e => (tbl, Except.error e)
  | Except.ok raw =>
    match decodeRow raw with
    | none => (tbl, Except.error "row decode failed")
    | some decoded =>
      let idxs := decoded.foldl
        (fun idxs e =>
          idxs.map fun ni =>
            if ni.2.Columns.contains e.1 then
              (ni.1, { ni.2 with
                btree := btreeRemove ni.2.btree (stringify e.2) (String.mk (itoaInt rowId)) })
            else ni)
        tbl.Indexes
      let tbl := { tbl with Indexes := idxs }
      match pagerDeletePage tbl.Rows rowId with
      | Except.error e => (tbl, Except.error e)
      | Except.ok p => ({ tbl with Rows := p }, Except.ok ())

/-- `catalog.SetClause` (src/unnamed/part_001:1421-1425). -/
structure SetClause where
  ColumnName : String
  SetValue : Value
  deriving DecidableEq, Repr

/-- The per-column validation arm of `Table.UpdateRow`
(src/unnamed/part_001:1451-1530): only CHAR/CHARACTER, NUMERIC-family and
integer columns are re-checked (the numeric arm demands a float64 outright —
unlike the insert arm it has no null escape — and the CHAR null rule is
inverted relative to insert, both as in the source). -/
def updateColCheck (colName : String) (colDef : ColumnDefinition) (row : Row) :
    Except String Row :=
  let dt := goToUpper colDef.DataType
  let v := (rowGet row colName).getD Value.vNull
  if dt = "CHARACTER" ∨ dt = "CHAR" then
    match v with
    | Value.vStr s =>
      if s.length > colDef.Length then
        Except.error ("column " ++ colName ++ " is too long")
      else Except.ok row
    | Value.vNull => Except.ok row
    | _ =>
      if ¬colDef.NotNull then Except.error ("column " ++ colName ++ " is not a string")
      else Except.ok row
  else if dt = "NUMERIC" ∨ dt = "DECIMAL" ∨ dt = "DEC" ∨ dt = "FLOAT" ∨
      dt = "DOUBLE" ∨ dt = "REAL" then
    match v with
    | Value.vFloat bits =>
      let parts := (fmtFloatG14 bits).splitOn "."
      if parts.length > 1 then
        if colDef.Scale > 0 ∧ (parts.getD 1 "").length > colDef.Scale then
          Except.error ("column " ++ colName ++ " has too many digits after the decimal point")
        else if colDef.Precision > 0 ∧
            (parts.getD 0 "").length + (parts.getD 1 "").length > colDef.Precision then
          Except.error ("column " ++ colName ++ " is too large")
        else Except.ok row
      else Except.ok row
    | _ => Except.error ("column " ++ colName ++ " is not a float64")
  else if dt = "INT" ∨ dt = "INTEGER" ∨ dt = "SMALLINT" then
    match v with
    | Value.vInt n =>
      if (dt = "INT" ∨ dt = "INTEGER") ∧ n > 2147483647 then
        Except.error ("column " ++ colName ++ " is too large for INT/INTEGER")
      else if dt = "SMALLINT" ∧ n > 32767 then
        Except.error ("column " ++ colName ++ " is too large for SMALLINT")
      else Except.ok row
    | _ => Except.error ("column " ++ colName ++ " is not an int")
  else Except.ok row

def updateValidateLoop (colTarget : String) :
    List (String × ColumnDefinition) → Row → Except String Row
  | [], row => Except.ok row
  | (colName, colDef) :: rest, row =>
    if colName = colTarget then
      match updateColCheck colName colDef row with
      | Except.error e => Except.error e
      | Except.ok row => updateValidateLoop colTarget rest row
    else updateValidateLoop colTarget rest row

/-- The sets loop of `Table.UpdateRow` (src/unnamed/part_001:1441-1532):
apply each set clause to the working row, re-validating the changed column;
`prevRow` is re-captured before *each* set, so after the loop it holds the
row as it was before the **last** set only. -/
def updateSetsLoop (schema : List (String × ColumnDefinition)) :
    List SetClause → Row → Row → Except String (Row × Row)
  | [], row, prevRow => Except.ok (row, prevRow)
  | set :: rest, row, _prevRow =>
    if (rowGet row set.ColumnName).isNone then
      Except.error ("column " ++ set.ColumnName ++ " does not exist")
    else
      let prevRow := row
      let row := rowSet row set.ColumnName set.SetValue
      match updateValidateLoop set.ColumnName schema row with
      | Except.error e => Except.error e
      | Except.ok row => updateSetsLoop schema rest row prevRow

/-- The index maintenance loop of `Table.UpdateRow`
(src/unnamed/part_001:1545-1565): for every set clause and covering index,
remove `(stringify (prevRow[col]), rowId)` and put
`(stringify (row[col]), rowId)` — with the single final `prevRow`. -/
def updateIdxLoop (rowId : Int) (schema : List (String × ColumnDefinition))
    (row prevRow : Row) :
    List SetClause → List (String × Index) → List (String × Index)
  | [], idxs => idxs
  | set :: rest, idxs =>
    let idxs := schema.foldl
      (fun idxs e =>
        if e.1 = set.ColumnName then
          idxs.map fun ni =>
            if ni.2.Columns.contains e.1 then
              (ni.1, { ni.2 with
                btree := btreePut
                  (btreeRemove ni.2.btree
                    (stringify ((rowGet prevRow e.1).getD Value.vNull))
                    (String.mk (itoaInt rowId)))
                  (stringify ((rowGet row e.1).getD Value.vNull))
                  (String.mk (itoaInt rowId)) })
            else ni
        else idxs)
      idxs
    updateIdxLoop rowId schema row prevRow rest idxs

/-- `Table.UpdateRow` (src/unnamed/part_001:1437-1569): apply the set
clauses, re-encode the row (*without* the compress/encrypt passes, as in the
source) and overwrite the page in place, then maintain the covering
indexes. -/
def UpdateRow (tbl : Table) (rowId : Int) (row0 : Row) (sets : List SetClause) :
    Table × Except String Unit :=
  match updateSetsLoop tbl.TableSchema sets row0 [] with
  | Except.error e => (tbl, Except.error e)
  | Except.ok (row, prevRow) =>
    let encoded := EncodeRow row
    match pagerWriteTo tbl.Rows rowId encoded with
    | Except.error e => (tbl, Except.error e)
    | Except.ok p =>
      let tbl := { tbl with Rows := p }
      let idxs := updateIdxLoop rowId tbl.TableSchema row prevRow sets tbl.Indexes
      ({ tbl with Indexes := idxs }, Except.ok ())

/-- `Table.CreateIndex` (src/unnamed/part_001:666-709), in-memory effects. -/
def CreateIndex (tbl : Table) (name : String) (columns : List String)
    (unique : Bool) : Except String Table :=
  if name.length > 64 then
    Except.error "index name is too long, max length is 64"
  else if (assocGet tbl.Indexes name).isSome then
    Except.error ("index " ++ name ++ " already exists")
  else
    Except.ok { tbl with Indexes := tbl.Indexes ++
      [(name, { Name := name, Columns := columns, Unique := unique, btree := [] })] }

/-- The per-column validation loop of `Database.CreateTable`
(src/unnamed/part_001:509-593), threading the table being built (unique
columns create their `unique_<col>` index) and the sequence-defined flag. -/
def createTableColsLoop :
    List (String × ColumnDefinition) → Table → Bool → Except String Table
  | [], tbl, _ => Except.ok tbl
  | (colName, colDef) :: rest, tbl, sequenceDefined =>
    if colName.length > 64 then
      Except.error "column name is too long, max length is 64"
    else if ¬(IsValidDataType colDef.DataType) then
      Except.error ("invalid data type " ++ colDef.DataType)
    else
      match (if colDef.Unique then CreateIndex tbl ("unique_" ++ colName) [colName] true
        else Except.ok tbl) with
      | Except.error e => Except.error e
      | Except.ok tbl =>
        if colDef.Sequence ∧ sequenceDefined then
          Except.error "only one sequence column is allowed per table"
        else if colDef.Sequence ∧ (¬colDef.Unique ∨ ¬colDef.NotNull) then
          Except.error ("sequence column " ++ colName ++ " must be unique and not null")
        else if colDef.Sequence ∧ goToUpper colDef.DataType ≠ "INT" ∧
            goToUpper colDef.DataType ≠ "INTEGER" then
          Except.error ("sequence column " ++ colName ++ " must be an integer")
        else
          let sequenceDefined := sequenceDefined ∨ colDef.Sequence
          let dt := goToUpper colDef.DataType
          if (dt = "CHARACTER" ∨ dt = "CHAR") ∧ colDef.Length = 0 then
            Except.error ("column " ++ colName ++ " requires a length")
          else if (dt = "NUMERIC" ∨ dt = "DECIMAL" ∨ dt = "DEC" ∨ dt = "FLOAT" ∨
              dt = "DOUBLE" ∨ dt = "REAL") ∧ colDef.Precision = 0 then
            Except.error ("column " ++ colName ++ " requires a precision")
          else if (dt = "NUMERIC" ∨ dt = "DECIMAL" ∨ dt = "DEC" ∨ dt = "FLOAT" ∨
              dt = "DOUBLE" ∨ dt = "REAL") ∧ colDef.Scale = 0 then
            Except.error ("column " ++ colName ++ " requires a scale")
          else createTableColsLoop rest tbl sequenceDefined

/-- `Database.CreateTable` (src/unnamed/part_001:480-659), in-memory and
file-content effects: validate the schema, build the unique indexes, set the
compression/encryption configuration (key/nonce derivation as in C3), create
the empty sequence file and the empty paged row file. -/
def CreateTable (db : Database) (name : String)
    (tblSchema : List (String × ColumnDefinition)) (encrypt compress : Bool)
    (key : List Nat) : Except String Database :=
  if name.length > 64 then
    Except.error "table name is too long, max length is 64"
  else if (assocGet db.Tables name).isSome then
    Except.error ("table " ++ name ++ " already exists")
  else
    let tbl : Table :=
      { Name := name, Indexes := [], Rows := { pages := [], deleted := [] },
        TableSchema := tblSchema, SequenceFile := [] }
    match createTableColsLoop tblSchema tbl false with
    | Except.error e => Except.error e
    | Except.ok tbl =>
      let tbl :=
        if encrypt then
          { tbl with
            Encrypt := true
            HashedKey := createTableHashedKey key
            Nonce := createTableNonce key }
        else tbl
      let tbl := if compress then { tbl with Compress := true } else tbl
      Except.ok { db with Tables := db.Tables ++ [(name, tbl)] }

/-! ## C9: UUID not-null columns reject every insert -/

theorem insertColType_uuid_notnull (tbl : Table) (colName : String)
    (colDef : ColumnDefinition) (row : Row)
    (hdt : goToUpper colDef.DataType = "UUID") (hnn : colDef.NotNull = true) :
    insertColType tbl colName colDef row =
      Except.error ("column " ++ colName ++ " is not a string") := by
  unfold insertColType
  rw [hdt]
  simp [insertColTypeCore, insertColTypeUUID, hnn]

theorem insertColsLoop_uuid_err (db : Database) (schema : List (String × ColumnDefinition))
    (cname : String) (cdef : ColumnDefinition)
    (hmem : (cname, cdef) ∈ schema)
    (hdt : goToUpper cdef.DataType = "UUID") (hnn : cdef.NotNull = true) :
    ∀ tbl row, ∃ e, insertColsLoop db schema tbl row = Except.error e := by
  induction schema with
  | nil => cases hmem
  | cons hd rest ih =>
    intro tbl row
    rcases hd with ⟨c0, d0⟩
    rcases List.mem_cons.mp hmem with heq | hmem2
    · obtain ⟨h1, h2⟩ : c0 = cname ∧ d0 = cdef := by
        cases heq
        exact ⟨rfl, rfl⟩
      subst h1
      subst h2
      rw [insertColsLoop]
      split
      · exact ⟨_, rfl⟩
      · rw [insertColType_uuid_notnull _ _ _ _ hdt hnn]
        exact ⟨_, rfl⟩
    · rw [insertColsLoop]
      split
      · exact ⟨_, rfl⟩
      · split
        all_goals try exact ⟨_, rfl⟩
        all_goals try exact ih hmem2 _ _
        split
        all_goals try exact ⟨_, rfl⟩
        split
        all_goals try exact ⟨_, rfl⟩
        exact ih hmem2 _ _

/-- **C9** (confirmed).  When a table schema holds a UUID column with the
not-null flag, the UUID validation arm errors unconditionally — before even
looking at the supplied value — so every `Insert` call fails and no row can
ever be inserted into the table. -/
theorem C9_uuid_notnull_insert_always_fails (db : Database) (tbl : Table)
    (cname : String) (cdef : ColumnDefinition)
    (hmem : (cname, cdef) ∈ tbl.TableSchema)
    (hdt : goToUpper cdef.DataType = "UUID") (hnn : cdef.NotNull = true)
    (row : Row) :
    ∃ e, insertRow db tbl row = Except.error e := by
  obtain ⟨e, he⟩ := insertColsLoop_uuid_err db tbl.TableSchema cname cdef hmem hdt hnn tbl row
  exact ⟨e, by rw [insertRow, he]⟩

/-- Witness for C9: a concrete table whose schema is a single not-null UUID
column, with a well-formed UUID string supplied. -/
theorem C9_uuid_notnull_witness :
    ∃ e, insertRow { Name := "d", Tables := [] }
      { Name := "tu",
        Indexes := [],
        Rows := { pages := [], deleted := [] },
        TableSchema := [("u", { DataType := "UUID", NotNull := true })],
        SequenceFile := [] }
      [("u", Value.vStr "00000000-0000-4000-8000-000000000000")] = Except.error e :=
  C9_uuid_notnull_insert_always_fails _ _ "u" { DataType := "UUID", NotNull := true }
    (by simp) (by rfl) (by rfl) _

/-! ## C8: batch insert semantics -/

def c4fallback : Table :=
  { Name := "", Indexes := [], Rows := { pages := [], deleted := [] },
    TableSchema := [], SequenceFile := [] }

def c4db : Database := { Name := "d", Tables := [] }

def c4schema : List (String × ColumnDefinition) :=
  [("b", { DataType := "BINARY", Unique := true, Length := 16 })]

/-- The table of spec scenario S4's shape: encrypted, with a unique BINARY
column, key material `"pw"`. -/
def c4tbl : Table :=
  match CreateTable c4db "tb" c4schema true false [112, 119] with
  | Except.ok d => (assocGet d.Tables "tb").getD c4fallback
  | Except.error _ => c4fallback

def c4row : Row := [("b", Value.vStr "01")]

def c4out : Table := (Insert c4db c4tbl [c4row, c4row]).1

/-- **C4** (counterexample).  On a table created with `encrypt = true`, a
batch inserting the same value into the unique column *twice* succeeds: the
uniqueness check looks the B-tree up under the plain stringified value while
the index stores the encrypted key, so the duplicate is never seen.  After
the batch, the table holds two live rows (nothing deleted) whose decrypted
pages decode to the same value `[1]` at the unique column `b` — falsifying
both the no-duplicates invariant and the claim that such an insert fails
with a uniqueness violation. -/
theorem C4_unique_encrypted_counterexample :
    (Insert c4db c4tbl [c4row, c4row]).2.isOk = true ∧
    c4out.Rows.deleted = [] ∧
    c4out.Rows.pages.map
        (fun pg => (Decrypt c4out.HashedKey c4out.Nonce pg).toOption.bind decodeRow) =
      [some [("b", Value.vBytes [1])], some [("b", Value.vBytes [1])]] :=
  ⟨rfl, rfl, rfl⟩

def c5fallback : Table :=
  { Name := "", Indexes := [], Rows := { pages := [], deleted := [] },
    TableSchema := [], SequenceFile := [] }

def c5db : Database := { Name := "d", Tables := [] }

def c5schema : List (String × ColumnDefinition) :=
  [("a", { DataType := "INT", Unique := true }),
   ("b", { DataType := "INT", Unique := true })]

def c5tbl : Table :=
  match CreateTable c5db "tab" c5schema false false [] with
  | Except.ok d => (assocGet d.Tables "tab").getD c5fallback
  | Except.error _ => c5fallback

def c5upd : Table × Except String Unit :=
  match insertRow c5db c5tbl [("a", Value.vInt 1), ("b", Value.vInt 10)] with
  | Except.ok p =>
    UpdateRow p.1 p.2.1 p.2.2
      [{ ColumnName := "a", SetValue := Value.vInt 2 },
       { ColumnName := "b", SetValue := Value.vInt 20 }]
  | Except.error e => (c5fallback, Except.error e)

/-- **C5** (counterexample).  On a plain table with unique indexes on `a` and
`b`, inserting `{a:1, b:10}` and then updating row 0 with the two set clauses
`a := 2, b := 20` in one `UpdateRow` call succeeds but leaves the stale pair
`("1", "0")` in `unique_a`: the maintenance loop derives the old key from
`prevRow`, which was re-captured before the *last* set only, so it removes
`("2", "0")` (not present) instead of `("1", "0")`.  The live row 0 has
`a = 2`, whose stringification is `"2"`, yet the index still contains the
pair `("1", "0")` — the index does not contain the pairs *exactly* for the
live rows. -/
theorem C5_update_stale_index_counterexample :
    c5upd.2 = Except.ok () ∧
    (c5upd.1.Indexes.map fun ni => (ni.1, ni.2.btree)) =
      [("unique_a", [("1", ["0"]), ("2", ["0"])]),
       ("unique_b", [("10", []), ("20", ["0"])])] ∧
    c5upd.1.Rows.pages.map decodeRow =
      [some [("a", Value.vInt 2), ("b", Value.vInt 20)]] ∧
    c5upd.1.Rows.deleted = [] :=
  ⟨rfl, rfl, rfl, rfl⟩

/-! ## C4: uniqueness invariant on plain tables — supporting lemmas -/

theorem assocGet_append_ne {α : Type} (l : List (String × α)) (k y : String)
    (x : α) (hy : y ≠ k) : assocGet (l ++ [(k, x)]) y = assocGet l y := by
  induction l with
  | nil =>
    simp only [List.nil_append, assocGet]
    rw [if_neg (fun h => hy h.symm)]
  | cons e l ih =>
    rw [List.cons_append, assocGet, assocGet]
    by_cases he : e.1 = y
    · rw [if_pos he, if_pos he]
    · rw [if_neg he, if_neg he]
      exact ih

theorem assocGet_append_self {α : Type} (l : List (String × α)) (k : String)
    (x : α) (hnone : assocGet l k = none) : assocGet (l ++ [(k, x)]) k = some x := by
  induction l with
  | nil =>
    simp [assocGet]
  | cons e l ih =>
    rw [assocGet] at hnone
    by_cases he : e.1 = k
    · rw [if_pos he] at hnone
      cases hnone
    · rw [if_neg he] at hnone
      rw [List.cons_append, assocGet, if_neg he]
      exact ih hnone

theorem assocGet_mapSet_ne {α : Type} (l : List (String × α)) (c y : String)
    (f : α → α) (hy : y ≠ c) :
    assocGet (l.map fun e => if e.1 = c then (e.1, f e.2) else e) y = assocGet l y := by
  induction l with
  | nil => rfl
  | cons e l ih =>
    by_cases he : e.1 = c
    · simp only [List.map_cons, if_pos he]
      rw [assocGet, assocGet]
      by_cases hey : e.1 = y
      · exact absurd (hey.symm.trans he) hy
      · rw [if_neg hey, if_neg hey]
        exact ih
    · simp only [List.map_cons, if_neg he]
      rw [assocGet, assocGet]
      by_cases hey : e.1 = y
      · rw [if_pos hey, if_pos hey]
      · rw [if_neg hey, if_neg hey]
        exact ih

theorem assocGet_mapSet_self {α : Type} (l : List (String × α)) (c : String)
    (f : α → α) (w : α) (hw : assocGet l c = some w) :
    assocGet (l.map fun e => if e.1 = c then (e.1, f e.2) else e) c = some (f w) := by
  induction l with
  | nil => cases hw
  | cons e l ih =>
    rw [assocGet] at hw
    by_cases he : e.1 = c
    · rw [if_pos he] at hw
      injection hw with hw
      simp only [List.map_cons, if_pos he]
      rw [assocGet, if_pos he, hw]
    · rw [if_neg he] at hw
      simp only [List.map_cons, if_neg he]
      rw [assocGet, if_neg he]
      exact ih hw

theorem rowGet_rowSet_self (row : Row) (c : String) (v : Value) :
    rowGet (rowSet row c v) c = some v := by
  unfold rowSet
  split
  · rename_i hsome
    unfold rowGet at hsome ⊢
    rcases hw : assocGet row c with _ | w
    · rw [hw] at hsome
      cases hsome
    · exact assocGet_mapSet_self row c (fun _ => v) w hw
  · rename_i hsome
    unfold rowGet at hsome ⊢
    rcases hw : assocGet row c with _ | w
    · exact assocGet_append_self row c v hw
    · rw [hw] at hsome
      simp at hsome

theorem rowGet_rowSet_ne (row : Row) (c : String) (v : Value) (y : String)
    (hy : y ≠ c) : rowGet (rowSet row c v) y = rowGet row y := by
  unfold rowSet rowGet
  split
  · exact assocGet_mapSet_ne row c y (fun _ => v) hy
  · exact assocGet_append_ne row c y v hy

theorem rowGet_rowSet_isSome (row : Row) (c : String) (v : Value) (y : String)
    (hs : (rowGet row y).isSome = true) :
    (rowGet (rowSet row c v) y).isSome = true := by
  by_cases hy : y = c
  · subst hy
    rw [rowGet_rowSet_self]
    rfl
  · rw [rowGet_rowSet_ne row c v y hy]
    exact hs

theorem rowGet_fill_isSome (row : Row) (c : String) :
    (rowGet (if (rowGet row c).isNone then row ++ [(c, Value.vNull)] else row) c).isSome
      = true := by
  split
  · rename_i hnone
    unfold rowGet at hnone ⊢
    rw [assocGet_append_self row c Value.vNull (Option.isNone_iff_eq_none.mp hnone)]
    rfl
  · rename_i hnone
    rcases h : rowGet row c with _ | w
    · rw [h] at hnone
      simp at hnone
    · rfl

theorem rowGet_fill_ne (row : Row) (c : String) (y : String) (hy : y ≠ c) :
    rowGet (if (rowGet row c).isNone then row ++ [(c, Value.vNull)] else row) y =
      rowGet row y := by
  split
  · exact assocGet_append_ne row c y Value.vNull hy
  · rfl

theorem rowGet_fill_isSome_any (row : Row) (c : String) (y : String)
    (hs : (rowGet row y).isSome = true) :
    (rowGet (if (rowGet row c).isNone then row ++ [(c, Value.vNull)] else row) y).isSome
      = true := by
  by_cases hy : y = c
  · subst hy
    exact rowGet_fill_isSome row y
  · rw [rowGet_fill_ne row c y hy]
    exact hs

/-- The successful outcomes of the `INT` arm: the table can change only in
its sequence file, and the row only at the processed column. -/
theorem insertColTypeInt_ok (tbl : Table) (colName : String) (cd : ColumnDefinition)
    (row : Row) (dt : String) (o : ColOutcome)
    (h : insertColTypeInt tbl colName cd row dt = Except.ok o) :
    ∃ sf row2,
      (o = ColOutcome.proceed { tbl with SequenceFile := sf } row2 ∨
        o = ColOutcome.skip { tbl with SequenceFile := sf } row2) ∧
      (∀ y, y ≠ colName → rowGet row2 y = rowGet row y) ∧
      (∀ y, (rowGet row y).isSome = true → (rowGet row2 y).isSome = true) := by
  unfold insertColTypeInt at h
  repeat
    first
    | exact Except.noConfusion h
    | (injection h with h2
       first
       | exact ⟨tbl.SequenceFile, _, Or.inl h2.symm, fun y hy => rfl, fun y hs => hs⟩
       | exact ⟨_, _, Or.inl h2.symm,
           fun y hy => rowGet_rowSet_ne row colName _ y hy,
           fun y hs => rowGet_rowSet_isSome row colName _ y hs⟩)
    | split at h
    | dsimp only [] at h

/-- The successful outcomes of the data-type switch: the table can change
only in its sequence file, and the row only at the processed column. -/
theorem insertColTypeCore_ok (tbl : Table) (colName : String) (cd : ColumnDefinition)
    (row : Row) (dt : String) (v : Value) (o : ColOutcome)
    (h : insertColTypeCore tbl colName cd row dt v = Except.ok o) :
    ∃ sf row2,
      (o = ColOutcome.proceed { tbl with SequenceFile := sf } row2 ∨
        o = ColOutcome.skip { tbl with SequenceFile := sf } row2) ∧
      (∀ y, y ≠ colName → rowGet row2 y = rowGet row y) ∧
      (∀ y, (rowGet row y).isSome = true → (rowGet row2 y).isSome = true) := by
  unfold insertColTypeCore at h
  iterate 7 all_goals try split at h
  all_goals try (unfold insertColTypeTail at h)
  iterate 6 all_goals try split at h
  all_goals
    first
    | exact Except.noConfusion h
    | exact insertColTypeInt_ok tbl colName cd row dt o h
    | (simp only [insertColTypeText, insertColTypeBool, insertColTypeBlob,
         insertColTypeBinary, insertColTypeUUID, insertColTypeDatetime,
         insertColTypeDate, insertColTypeTime, insertColTypeChar,
         insertColTypeNumeric, uuidParseStep] at h
       repeat
         first
         | exact Except.noConfusion h
         | (injection h with h2
            first
            | exact ⟨tbl.SequenceFile, _, Or.inl h2.symm, fun y hy => rfl, fun y hs => hs⟩
            | exact ⟨tbl.SequenceFile, _, Or.inr h2.symm, fun y hy => rfl, fun y hs => hs⟩
            | exact ⟨tbl.SequenceFile, _, Or.inl h2.symm,
                fun y hy => rowGet_rowSet_ne row colName _ y hy,
                fun y hs => rowGet_rowSet_isSome row colName _ y hs⟩
            | exact ⟨tbl.SequenceFile, _, Or.inr h2.symm,
                fun y hy => rowGet_rowSet_ne row colName _ y hy,
                fun y hs => rowGet_rowSet_isSome row colName _ y hs⟩
            | exact ⟨_, _, Or.inl h2.symm,
                fun y hy => rowGet_rowSet_ne row colName _ y hy,
                fun y hs => rowGet_rowSet_isSome row colName _ y hs⟩
            | exact ⟨_, _, Or.inr h2.symm,
                fun y hy => rowGet_rowSet_ne row colName _ y hy,
                fun y hs => rowGet_rowSet_isSome row colName _ y hs⟩)
         | split at h)


/-! ## C4 amended: shared helper lemmas for the plain-table uniqueness
invariant -/

theorem assocGet_mem {α : Type} (l : List (String × α)) (k : String) (v : α)
    (h : assocGet l k = some v) : (k, v) ∈ l := by
  induction l with
  | nil => cases h
  | cons e l ih =>
    obtain ⟨a, b⟩ := e
    rw [assocGet] at h
    by_cases he : a = k
    · rw [if_pos he] at h
      injection h with h
      rw [← he, ← h]
      exact List.mem_cons_self _ _
    · rw [if_neg he] at h
      exact List.mem_cons_of_mem _ (ih h)

theorem btreeGet_put_self (t : BTreeMap) (k v : String) :
    btreeGet (btreePut t k v) k = some ((btreeGet t k).getD [] ++ [v]) := by
  unfold btreePut
  split
  · rename_i hsome
    unfold btreeGet at hsome ⊢
    rcases hw : assocGet t k with _ | w
    · rw [hw] at hsome
      cases hsome
    · exact assocGet_mapSet_self t k (fun l => l ++ [v]) w hw
  · rename_i hsome
    unfold btreeGet at hsome ⊢
    rcases hw : assocGet t k with _ | w
    · exact assocGet_append_self t k [v] hw
    · rw [hw] at hsome
      simp at hsome

theorem btreeGet_put_ne (t : BTreeMap) (k v y : String) (hy : y ≠ k) :
    btreeGet (btreePut t k v) y = btreeGet t y := by
  unfold btreePut btreeGet
  split
  · exact assocGet_mapSet_ne t k y (fun l => l ++ [v]) hy
  · exact assocGet_append_ne t k y [v] hy

theorem btree_mem_put_preserve (t : BTreeMap) (k v y s : String)
    (h : s ∈ (btreeGet t y).getD []) :
    s ∈ (btreeGet (btreePut t k v) y).getD [] := by
  by_cases hy : y = k
  · subst hy
    rw [btreeGet_put_self]
    rcases hw : btreeGet t y with _ | w
    · rw [hw] at h
      cases h
    · rw [hw] at h
      exact List.mem_append_left [v] h
  · rw [btreeGet_put_ne t k v y hy]
    exact h

theorem btree_mem_put_new (t : BTreeMap) (k v : String) :
    v ∈ (btreeGet (btreePut t k v) k).getD [] := by
  rw [btreeGet_put_self]
  exact List.mem_append_right _ (List.mem_singleton.mpr rfl)

theorem pagerGetPage_lt (p : Pager) (j : Nat) (hj : j < p.pages.length) :
    pagerGetPage p (j : Int) = Except.ok (p.pages.getD j []) := by
  unfold pagerGetPage
  rw [if_pos ⟨Int.ofNat_nonneg j, by exact_mod_cast hj⟩]
  rw [Int.toNat_ofNat]

theorem goValueEq_self_ne_false (a : Value) :
    goValueEq a a ≠ Except.ok false := by
  cases a <;> simp [goValueEq]


/-- The data types whose insert arm can only proceed or fail (never `continue`
past the uniqueness check): every other type has a `continue` path that skips
it. -/
def checkedTypes : List String :=
  ["TEXT", "BOOL", "BOOLEAN", "BLOB", "BINARY", "INT", "INTEGER", "SMALLINT"]

/-- What `indexPutCol` does to one index entry of a plain (uncompressed,
unencrypted) table: covering indexes gain the pair. -/
def putIdxPlain (rowId : Int) (col : String) (val : Value) (ni : String × Index) :
    String × Index :=
  if ni.2.Columns.contains col then
    (ni.1, { ni.2 with
      btree := btreePut ni.2.btree (stringify val) (String.mk (itoaInt rowId)) })
  else ni

/-- The whole index maintenance of one inserted row of a plain table. -/
def putIdxFold (rowId : Int) (row : Row) (idxs : List (String × Index)) :
    List (String × Index) :=
  row.foldl (fun idxs e => idxs.map (putIdxPlain rowId e.1 e.2)) idxs

theorem indexPutCol_plain (hk nk : List Nat) (rowId : Int) (col : String)
    (val : Value) :
    ∀ idxs : List (String × Index),
      indexPutCol false false hk nk rowId col idxs val =
        Except.ok (idxs.map (putIdxPlain rowId col val)) := by
  intro idxs
  induction idxs with
  | nil => rfl
  | cons ni rest ih =>
    obtain ⟨name, idx⟩ := ni
    simp [indexPutCol, putIdxPlain, ih]
    split <;> rfl

theorem indexPutAll_plain (rowId : Int) :
    ∀ (row : Row) (tbl : Table), tbl.Compress = false → tbl.Encrypt = false →
      indexPutAll rowId tbl row =
        Except.ok { tbl with Indexes := putIdxFold rowId row tbl.Indexes } := by
  intro row
  induction row with
  | nil =>
    intro tbl hC hE
    rfl
  | cons e rest ih =>
    intro tbl hC hE
    obtain ⟨col, val⟩ := e
    show (match indexPutCol tbl.Compress tbl.Encrypt tbl.HashedKey tbl.Nonce rowId col
        tbl.Indexes val with
      | Except.error e => Except.error e
      | Except.ok idxs => indexPutAll rowId { tbl with Indexes := idxs } rest) =
      Except.ok { tbl with Indexes := putIdxFold rowId ((col, val) :: rest) tbl.Indexes }
    have hcall : indexPutCol tbl.Compress tbl.Encrypt tbl.HashedKey tbl.Nonce rowId col
        tbl.Indexes val = Except.ok (tbl.Indexes.map (putIdxPlain rowId col val)) := by
      rw [hC, hE, indexPutCol_plain]
    rw [hcall]
    show indexPutAll rowId { tbl with Indexes := tbl.Indexes.map (putIdxPlain rowId col val) }
        rest =
      Except.ok { tbl with Indexes := putIdxFold rowId ((col, val) :: rest) tbl.Indexes }
    exact (ih { tbl with Indexes := tbl.Indexes.map (putIdxPlain rowId col val) } hC hE).trans rfl

theorem writeRow_plain (tbl : Table) (row : Row) (hC : tbl.Compress = false)
    (hE : tbl.Encrypt = false) :
    writeRow tbl row = Except.ok
      ({ tbl with Rows := Pager.mk (tbl.Rows.pages ++ [EncodeRow row]) tbl.Rows.deleted },
        (tbl.Rows.pages.length : Int)) := by
  unfold writeRow pagerWrite
  rw [hC, hE]
  rfl

theorem putIdxPlain_pred (rowId : Int) (col : String) (val : Value) (c : String)
    (ni : String × Index) :
    ((putIdxPlain rowId col val ni).2.Columns.contains c &&
        (putIdxPlain rowId col val ni).2.Unique == true) =
      (ni.2.Columns.contains c && ni.2.Unique == true) := by
  unfold putIdxPlain
  split <;> rfl

/-- The per-row index fold keeps a unique index covering `c` findable, never
drops pairs from its B-tree, and records a pair for every column of the row. -/
theorem putIdxFold_spec (c : String) (rowId : Int) :
    ∀ (row : Row) (idxs : List (String × Index)) (ni : String × Index),
      idxs.find? (fun ni => ni.2.Columns.contains c && ni.2.Unique == true) = some ni →
      ∃ ni2,
        (putIdxFold rowId row idxs).find?
          (fun ni => ni.2.Columns.contains c && ni.2.Unique == true) = some ni2 ∧
        (∀ k s, s ∈ (btreeGet ni.2.btree k).getD [] →
          s ∈ (btreeGet ni2.2.btree k).getD []) ∧
        (∀ v, (c, v) ∈ row →
          String.mk (itoaInt rowId) ∈ (btreeGet ni2.2.btree (stringify v)).getD []) := by
  intro row
  induction row with
  | nil =>
    intro idxs ni hf
    refine ⟨ni, hf, fun k s hs => hs, fun v hv => absurd hv (List.not_mem_nil _)⟩
  | cons e rest ih =>
    intro idxs ni hf
    obtain ⟨col, val⟩ := e
    have hmap : (idxs.map (putIdxPlain rowId col val)).find?
        (fun ni => ni.2.Columns.contains c && ni.2.Unique == true) =
        some (putIdxPlain rowId col val ni) := by
      rw [List.find?_map]
      have hpred : ((fun ni : String × Index =>
          ni.2.Columns.contains c && ni.2.Unique == true) ∘ putIdxPlain rowId col val) =
          (fun ni : String × Index => ni.2.Columns.contains c && ni.2.Unique == true) := by
        funext ni2
        exact putIdxPlain_pred rowId col val c ni2
      rw [hpred, hf]
      rfl
    obtain ⟨ni2, hf2, hpres, hnew⟩ :=
      ih (idxs.map (putIdxPlain rowId col val)) (putIdxPlain rowId col val ni) hmap
    refine ⟨ni2, hf2, ?_, ?_⟩
    · intro k s hs
      refine hpres k s ?_
      unfold putIdxPlain
      split
      · exact btree_mem_put_preserve ni.2.btree (stringify val) (String.mk (itoaInt rowId)) k s hs
      · exact hs
    · intro v hv
      rcases List.mem_cons.mp hv with hv | hv
      · injection hv with h1 h2
        have hcontains : ni.2.Columns.contains col = true := by
          have hp := List.find?_some hf
          have hp1 := (Bool.and_eq_true _ _).mp hp |>.1
          rw [h1] at hp1
          exact hp1
        rw [h2]
        refine hpres (stringify val) (String.mk (itoaInt rowId)) ?_
        unfold putIdxPlain
        rw [if_pos hcontains]
        exact btree_mem_put_new ni.2.btree (stringify val) (String.mk (itoaInt rowId))
      · exact hnew v hv


/-- A loop that returns `ok` compared every listed row id against the new
value and found none equal: no listed id can decode to an equal value. -/
theorem uniqueCheckLoop_ok_no_dup (rows : Pager) (c : String) (v : Value) :
    ∀ vals, uniqueCheckLoop rows c v vals = Except.ok () →
      ∀ rid ∈ vals, ∀ id pg r, atoiChars rid.data = some id →
        pagerGetPage rows id = Except.ok pg → decodeRow pg = some r →
        (rowGet r c).getD Value.vNull ≠ v := by
  intro vals
  induction vals with
  | nil =>
    intro h rid hrid
    cases hrid
  | cons rid0 rest ih =>
    intro h rid hrid id pg r hid hpg hr hne
    unfold uniqueCheckLoop at h
    split at h
    · exact Except.noConfusion h
    · rename_i id0 heq0
      split at h
      · exact Except.noConfusion h
      · rename_i pg0 heq1
        split at h
        · exact Except.noConfusion h
        · rename_i r0 heq2
          split at h
          · exact Except.noConfusion h
          · exact Except.noConfusion h
          · rename_i heq3
            rcases List.mem_cons.mp hrid with hrid | hrid
            · subst hrid
              rw [hid] at heq0
              injection heq0 with heq0
              subst heq0
              rw [hpg] at heq1
              injection heq1 with heq1
              subst heq1
              rw [hr] at heq2
              injection heq2 with heq2
              subst heq2
              rw [hne] at heq3
              exact goValueEq_self_ne_false v heq3
            · exact ih h rid hrid id pg r hid hpg hr hne

/-- A successful uniqueness check on a unique column means the loop ran to
`ok` over whatever the B-tree holds under the stringified value. -/
theorem insertUniqueCheck_ok (tbl : Table) (c : String) (cd : ColumnDefinition)
    (row : Row) (hu : cd.Unique = true)
    (h : insertUniqueCheck tbl c cd row = Except.ok ())
    (idx : Index) (hidx : CheckIndexedColumn tbl c true = some idx)
    (vals : List String)
    (hvals : btreeGet idx.btree (stringify ((rowGet row c).getD Value.vNull)) =
      some vals) :
    uniqueCheckLoop tbl.Rows c ((rowGet row c).getD Value.vNull) vals =
      Except.ok () := by
  unfold insertUniqueCheck at h
  split at h
  · split at h
    · exact Except.noConfusion h
    · split at h
      · exact Except.noConfusion h
      · rename_i idx0 heqI
        rw [hidx] at heqI
        injection heqI with heqI
        subst heqI
        dsimp only [] at h
        split at h
        · rename_i heqV
          rw [hvals] at heqV
          cases heqV
        · rename_i vals0 heqV
          rw [hvals] at heqV
          injection heqV with heqV
          subst heqV
          exact h
  · rename_i hun
    exact absurd hu (by simpa using hun)

/-- On the checked types the data-type switch never takes a `continue`
path: a skip outcome is impossible. -/
theorem insertColTypeCore_checked_no_skip (tbl : Table) (colName : String)
    (cd : ColumnDefinition) (row : Row) (dt : String) (v : Value)
    (t : Table) (r : Row) (hck : dt ∈ checkedTypes)
    (h : insertColTypeCore tbl colName cd row dt v =
      Except.ok (ColOutcome.skip t r)) : False := by
  simp only [checkedTypes, List.mem_cons, List.not_mem_nil, or_false] at hck
  rcases hck with h1 | h1 | h1 | h1 | h1 | h1 | h1 | h1 <;>
    subst h1 <;>
    simp [insertColTypeCore, insertColTypeTail, insertColTypeText, insertColTypeBool,
      insertColTypeBlob, insertColTypeBinary, insertColTypeInt] at h <;>
    (repeat
      first
      | exact Except.noConfusion h
      | (injection h with h2
         exact ColOutcome.noConfusion h2)
      | split at h
      | (dsimp only [] at h))

/-- The wrapper form of `insertColTypeCore_ok` at the values the source
computes. -/
theorem insertColType_ok (tbl : Table) (colName : String) (cd : ColumnDefinition)
    (row : Row) (o : ColOutcome)
    (h : insertColType tbl colName cd row = Except.ok o) :
    ∃ sf row2,
      (o = ColOutcome.proceed { tbl with SequenceFile := sf } row2 ∨
        o = ColOutcome.skip { tbl with SequenceFile := sf } row2) ∧
      (∀ y, y ≠ colName → rowGet row2 y = rowGet row y) ∧
      (∀ y, (rowGet row y).isSome = true → (rowGet row2 y).isSome = true) :=
  insertColTypeCore_ok tbl colName cd row (goToUpper cd.DataType)
    ((rowGet row colName).getD Value.vNull) o h

/-- The wrapper form of the no-skip fact. -/
theorem insertColType_checked_no_skip (tbl : Table) (colName : String)
    (cd : ColumnDefinition) (row : Row) (t : Table) (r : Row)
    (hck : goToUpper cd.DataType ∈ checkedTypes)
    (h : insertColType tbl colName cd row = Except.ok (ColOutcome.skip t r)) :
    False :=
  insertColTypeCore_checked_no_skip tbl colName cd row (goToUpper cd.DataType)
    ((rowGet row colName).getD Value.vNull) t r hck h


/-- The schema loop of `Table.insert` on a schema with distinct column
names: on success the table changed only in its sequence file, present
columns stay present, columns outside the schema are untouched, and every
unique checked-type column passed its uniqueness check at the value the
final row still holds. -/
theorem insertColsLoop_spec (db : Database) :
    ∀ (schema : List (String × ColumnDefinition)) (tbl : Table) (row : Row)
      (out : Table × Row),
      (schema.map Prod.fst).Nodup →
      insertColsLoop db schema tbl row = Except.ok out →
      (∃ sf, out.1 = { tbl with SequenceFile := sf }) ∧
      (∀ y, (rowGet row y).isSome = true → (rowGet out.2 y).isSome = true) ∧
      (∀ y, (∀ e ∈ schema, e.1 ≠ y) → rowGet out.2 y = rowGet row y) ∧
      (∀ c cd, (c, cd) ∈ schema → goToUpper cd.DataType ∈ checkedTypes →
        ∃ sf2 row2,
          insertUniqueCheck { tbl with SequenceFile := sf2 } c cd row2 =
            Except.ok () ∧
          rowGet row2 c = rowGet out.2 c ∧ (rowGet out.2 c).isSome = true) := by
  intro schema
  induction schema with
  | nil =>
    intro tbl row out hnd h
    unfold insertColsLoop at h
    injection h with h1
    subst h1
    exact ⟨⟨tbl.SequenceFile, rfl⟩, fun y hy => hy, fun y _ => rfl,
      fun c cd hmem _ => absurd hmem (List.not_mem_nil _)⟩
  | cons e rest ih =>
    intro tbl row out hnd h
    obtain ⟨colName, colDef⟩ := e
    simp only [List.map_cons, List.nodup_cons] at hnd
    obtain ⟨hnm, hndr⟩ := hnd
    unfold insertColsLoop at h
    split at h
    · exact Except.noConfusion h
    · generalize hfill : (if (rowGet row colName).isNone then
        row ++ [(colName, Value.vNull)] else row) = rowf at h
      split at h
      · exact Except.noConfusion h
      · rename_i tblS rowS heqA
        obtain ⟨sfA, rowA, hdisj, hpr, hmono⟩ :=
          insertColType_ok tbl colName colDef rowf _ heqA
        rcases hdisj with hdisj | hdisj
        · exact ColOutcome.noConfusion hdisj
        · injection hdisj with hT hR
          subst hT
          subst hR
          obtain ⟨⟨sf1, hout1⟩, hmono2, hpr2, hcols2⟩ := ih _ _ out hndr h
          refine ⟨⟨sf1, hout1.trans rfl⟩, ?_, ?_, ?_⟩
          · intro y hy
            refine hmono2 y (hmono y ?_)
            rw [← hfill]
            exact rowGet_fill_isSome_any row colName y hy
          · intro y hyall
            have hync : colName ≠ y := hyall (colName, colDef) (List.mem_cons_self _ _)
            have h2 := hpr2 y (fun e2 he2 => hyall e2 (List.mem_cons_of_mem _ he2))
            rw [h2, hpr y (Ne.symm hync), ← hfill]
            exact rowGet_fill_ne row colName y (Ne.symm hync)
          · intro c cd hmem hck
            rcases List.mem_cons.mp hmem with hmem | hmem
            · injection hmem with hc1 hc2
              exact absurd heqA
                (fun hh => insertColType_checked_no_skip tbl colName colDef rowf _ _
                  (by rw [← hc2]; exact hck) hh)
            · obtain ⟨sf2, row2, hchk, hval, hsome⟩ := hcols2 c cd hmem hck
              exact ⟨sf2, row2, hchk, hval, hsome⟩
      · rename_i tblP rowP heqA
        split at h
        · exact Except.noConfusion h
        · rename_i hchk0
          split at h
          · exact Except.noConfusion h
          · rename_i hrefs0
            obtain ⟨sfA, rowA, hdisj, hpr, hmono⟩ :=
              insertColType_ok tbl colName colDef rowf _ heqA
            rcases hdisj with hdisj | hdisj
            · injection hdisj with hT hR
              subst hT
              subst hR
              obtain ⟨⟨sf1, hout1⟩, hmono2, hpr2, hcols2⟩ := ih _ _ out hndr h
              refine ⟨⟨sf1, hout1.trans rfl⟩, ?_, ?_, ?_⟩
              · intro y hy
                refine hmono2 y (hmono y ?_)
                rw [← hfill]
                exact rowGet_fill_isSome_any row colName y hy
              · intro y hyall
                have hync : colName ≠ y :=
                  hyall (colName, colDef) (List.mem_cons_self _ _)
                have h2 := hpr2 y (fun e2 he2 => hyall e2 (List.mem_cons_of_mem _ he2))
                rw [h2, hpr y (Ne.symm hync), ← hfill]
                exact rowGet_fill_ne row colName y (Ne.symm hync)
              · intro c cd hmem hck
                have hrestne : ∀ e2 ∈ rest, e2.1 ≠ colName := by
                  intro e2 he2 hec
                  refine hnm ?_
                  rw [← hec]
                  exact List.mem_map_of_mem Prod.fst he2
                rcases List.mem_cons.mp hmem with hmem | hmem
                · injection hmem with hc1 hc2
                  refine ⟨sfA, rowP, ?_, ?_, ?_⟩
                  · rw [hc1, hc2]
                    exact hchk0
                  · rw [hc1]
                    exact (hpr2 colName hrestne).symm
                  · rw [hc1]
                    refine hmono2 colName (hmono colName ?_)
                    rw [← hfill]
                    exact rowGet_fill_isSome row colName
                · obtain ⟨sf2, row2, hchk, hval, hsome⟩ := hcols2 c cd hmem hck
                  exact ⟨sf2, row2, hchk, hval, hsome⟩
            · exact ColOutcome.noConfusion hdisj


/-- No two live pages decode to rows with equal values at column `c`. -/
def DistinctAt (c : String) (pages : List (List Nat)) : Prop :=
  ∀ i j : Nat, i < pages.length → j < pages.length → i ≠ j →
    ∀ ri rj, decodeRow (pages.getD i []) = some ri →
      decodeRow (pages.getD j []) = some rj →
      (rowGet ri c).getD Value.vNull ≠ (rowGet rj c).getD Value.vNull

/-- The inductive invariant of the amended uniqueness claim: a plain table
with nothing deleted, a findable unique index covering `c` whose B-tree
lists every live row id under the stringified value of its row, and
pairwise distinct values at `c`. -/
structure UniquePlainInv (tbl : Table) (c : String) : Prop where
  plainC : tbl.Compress = false
  plainE : tbl.Encrypt = false
  nodel : tbl.Rows.deleted = []
  found : ∃ ni : String × Index,
    tbl.Indexes.find? (fun p => p.2.Columns.contains c && p.2.Unique == true) =
      some ni ∧
    ∀ j : Nat, j < tbl.Rows.pages.length →
      ∀ r, decodeRow (tbl.Rows.pages.getD j []) = some r →
        String.mk (itoaInt (j : Int)) ∈
          (btreeGet ni.2.btree (stringify ((rowGet r c).getD Value.vNull))).getD []
  distinct : DistinctAt c tbl.Rows.pages

/-- `writeRow` on a plain table, as an implication usable on opaque
outputs. -/
theorem writeRow_plain_eq (tblIn : Table) (row : Row) (out : Table × Int)
    (h : writeRow tblIn row = Except.ok out)
    (hC : tblIn.Compress = false) (hE : tblIn.Encrypt = false) :
    out = ({ tblIn with
        Rows := Pager.mk (tblIn.Rows.pages ++ [EncodeRow row]) tblIn.Rows.deleted },
      (tblIn.Rows.pages.length : Int)) := by
  rw [writeRow_plain tblIn row hC hE] at h
  injection h with h
  exact h.symm

/-- `indexPutAll` on a plain table, as an implication usable on opaque
outputs. -/
theorem indexPutAll_plain_eq (rowId : Int) (row : Row) (tblIn tblOut : Table)
    (h : indexPutAll rowId tblIn row = Except.ok tblOut)
    (hC : tblIn.Compress = false) (hE : tblIn.Encrypt = false) :
    tblOut = { tblIn with Indexes := putIdxFold rowId row tblIn.Indexes } := by
  rw [indexPutAll_plain rowId row tblIn hC hE] at h
  injection h with h
  exact h.symm

/-- One successful `insert` on a plain table with a unique checked-type
column keeps the invariant, appends exactly one page, and its stored row
collides with no previously live row at `c`. -/
theorem insertRow_plain_step (db : Database) (tbl : Table) (c : String)
    (cd : ColumnDefinition) (row : Row) (tbl2 : Table) (rid : Int) (row2 : Row)
    (hmem : (c, cd) ∈ tbl.TableSchema)
    (hnd : (tbl.TableSchema.map Prod.fst).Nodup)
    (hu : cd.Unique = true)
    (hck : goToUpper cd.DataType ∈ checkedTypes)
    (hinv : UniquePlainInv tbl c)
    (h : insertRow db tbl row = Except.ok (tbl2, rid, row2)) :
    UniquePlainInv tbl2 c ∧ tbl2.TableSchema = tbl.TableSchema ∧
    tbl2.Rows.pages = tbl.Rows.pages ++ [EncodeRow row2] ∧
    (∀ j : Nat, j < tbl.Rows.pages.length → ∀ r,
      decodeRow (tbl.Rows.pages.getD j []) = some r →
      (rowGet row2 c).getD Value.vNull ≠ (rowGet r c).getD Value.vNull) := by
  unfold insertRow at h
  split at h
  · exact Except.noConfusion h
  · rename_i tbl1 row1 hloop
    obtain ⟨⟨sf, hT1⟩, hmonoL, hprL, hcolsL⟩ :=
      insertColsLoop_spec db tbl.TableSchema tbl row (tbl1, row1) hnd hloop
    have hT1b : tbl1 = { tbl with SequenceFile := sf } := hT1
    subst hT1b
    split at h
    · exact Except.noConfusion h
    · rename_i tblW rid0 hwr
      have hwrE := writeRow_plain_eq _ row1 (tblW, rid0) hwr hinv.plainC hinv.plainE
      injection hwrE with hwA hwB
      subst hwA
      subst hwB
      split at h
      · exact Except.noConfusion h
      · rename_i tblI hput
        have hputE := indexPutAll_plain_eq _ row1 _ tblI hput hinv.plainC hinv.plainE
        subst hputE
        injection h with h5
        injection h5 with h5a h5b
        injection h5b with h5b h5c
        subst h5a
        subst h5b
        subst h5c
        obtain ⟨sf2, rowc, hchk, hval, hsome⟩ := hcolsL c cd hmem hck
        have hval2 : rowGet rowc c = rowGet row1 c := hval
        have hsome2 : (rowGet row1 c).isSome = true := hsome
        obtain ⟨ni, hfind, hcomp⟩ := hinv.found
        have hCIC : CheckIndexedColumn { tbl with SequenceFile := sf2 } c true =
            some ni.2 := by
          show (tbl.Indexes.find? fun p =>
            p.2.Columns.contains c && p.2.Unique == true).map Prod.snd = some ni.2
          rw [hfind]
          rfl
        have hnocol : ∀ j : Nat, j < tbl.Rows.pages.length → ∀ r,
            decodeRow (tbl.Rows.pages.getD j []) = some r →
            (rowGet row1 c).getD Value.vNull ≠ (rowGet r c).getD Value.vNull := by
          intro j hj r hr heq
          have hcompj := hcomp j hj r hr
          have hkey : stringify ((rowGet r c).getD Value.vNull) =
              stringify ((rowGet rowc c).getD Value.vNull) := by
            rw [hval2, heq]
          rw [hkey] at hcompj
          rcases hbt : btreeGet ni.2.btree
              (stringify ((rowGet rowc c).getD Value.vNull)) with _ | vals
          · rw [hbt] at hcompj
            cases hcompj
          · rw [hbt] at hcompj
            have hloopok := insertUniqueCheck_ok { tbl with SequenceFile := sf2 }
              c cd rowc hu hchk ni.2 hCIC vals hbt
            have hnd2 := uniqueCheckLoop_ok_no_dup
              ({ tbl with SequenceFile := sf2 } : Table).Rows c
              ((rowGet rowc c).getD Value.vNull) vals hloopok
              (String.mk (itoaInt (j : Int))) hcompj (j : Int)
              (tbl.Rows.pages.getD j []) r ?_ ?_ hr
            · refine hnd2 ?_
              rw [hval2, heq]
            · show atoiChars (itoaInt (j : Int)) = some (j : Int)
              rw [itoaInt_ofNat]
              exact atoiChars_itoaNat j
            · exact pagerGetPage_lt tbl.Rows j hj
        have htransD : ∀ k : Nat, k < tbl.Rows.pages.length → ∀ rk : Row,
            decodeRow ((tbl.Rows.pages ++ [EncodeRow row1]).getD k []) = some rk →
            decodeRow (tbl.Rows.pages.getD k []) = some rk := by
          intro k hk rk hrk
          rw [List.getD_append _ _ _ _ hk] at hrk
          exact hrk
        have hgetN : (tbl.Rows.pages ++ [EncodeRow row1]).getD
            tbl.Rows.pages.length [] = EncodeRow row1 := by
          rw [List.getD_append_right _ _ _ _ (Nat.le_refl _)]
          simp
        refine ⟨⟨hinv.plainC, hinv.plainE, hinv.nodel, ?_, ?_⟩, rfl, rfl, hnocol⟩
        · obtain ⟨ni2, hfind2, hpres, hnew⟩ :=
            putIdxFold_spec c (tbl.Rows.pages.length : Int) row1 tbl.Indexes ni hfind
          refine ⟨ni2, hfind2, ?_⟩
          intro j hj r hr
          have hj2 : j < tbl.Rows.pages.length + 1 := by
            have hj3 : j < (tbl.Rows.pages ++ [EncodeRow row1]).length := hj
            simpa using hj3
          have hr3 : decodeRow ((tbl.Rows.pages ++ [EncodeRow row1]).getD j []) =
            some r := hr
          by_cases hjN : j < tbl.Rows.pages.length
          · exact hpres _ _ (hcomp j hjN r (htransD j hjN r hr3))
          · have hjn : j = tbl.Rows.pages.length := by omega
            subst hjn
            rw [hgetN, decodeRow_EncodeRow] at hr3
            injection hr3 with hr3
            subst hr3
            rcases hvv : rowGet row1 c with _ | v
            · rw [hvv] at hsome2
              cases hsome2
            · have hmemrow : (c, v) ∈ row1 := assocGet_mem row1 c v hvv
              exact hnew v hmemrow
        · intro i j hi hj hij ri rj hri hrj
          have hi3 : i < (tbl.Rows.pages ++ [EncodeRow row1]).length := hi
          have hj3 : j < (tbl.Rows.pages ++ [EncodeRow row1]).length := hj
          have hi2 : i < tbl.Rows.pages.length + 1 := by simpa using hi3
          have hj2 : j < tbl.Rows.pages.length + 1 := by simpa using hj3
          have hri3 : decodeRow ((tbl.Rows.pages ++ [EncodeRow row1]).getD i []) =
            some ri := hri
          have hrj3 : decodeRow ((tbl.Rows.pages ++ [EncodeRow row1]).getD j []) =
            some rj := hrj
          by_cases hiN : i < tbl.Rows.pages.length <;>
            by_cases hjN : j < tbl.Rows.pages.length
          · exact hinv.distinct i j hiN hjN hij ri rj
              (htransD i hiN ri hri3) (htransD j hjN rj hrj3)
          · have hjn : j = tbl.Rows.pages.length := by omega
            subst hjn
            rw [hgetN, decodeRow_EncodeRow] at hrj3
            injection hrj3 with hrj3
            subst hrj3
            exact fun he => hnocol i hiN ri (htransD i hiN ri hri3) he.symm
          · have hin : i = tbl.Rows.pages.length := by omega
            subst hin
            rw [hgetN, decodeRow_EncodeRow] at hri3
            injection hri3 with hri3
            subst hri3
            exact hnocol j hjN rj (htransD j hjN rj hrj3)
          · have hin : i = tbl.Rows.pages.length := by omega
            have hjn : j = tbl.Rows.pages.length := by omega
            exact absurd (hin.trans hjn.symm) hij


/-- The invariant survives any successful batch of inserts on a plain
table. -/
theorem Insert_plain_inv (db : Database) (c : String) (cd : ColumnDefinition) :
    ∀ (rows : List Row) (tbl tbl1 : Table) (ids : List Int) (rows1 : List Row),
      (c, cd) ∈ tbl.TableSchema →
      (tbl.TableSchema.map Prod.fst).Nodup →
      cd.Unique = true →
      goToUpper cd.DataType ∈ checkedTypes →
      UniquePlainInv tbl c →
      Insert db tbl rows = (tbl1, Except.ok (ids, rows1)) →
      UniquePlainInv tbl1 c ∧ tbl1.TableSchema = tbl.TableSchema := by
  intro rows
  induction rows with
  | nil =>
    intro tbl tbl1 ids rows1 hmem hnd hu hck hinv h
    unfold Insert at h
    injection h with h1 h2
    subst h1
    exact ⟨hinv, rfl⟩
  | cons row rest ih =>
    intro tbl tbl1 ids rows1 hmem hnd hu hck hinv h
    unfold Insert at h
    split at h
    · rename_i e heqR
      injection h with h1 h2
      exact Except.noConfusion h2
    · rename_i p heqR
      split at h
      · rename_i tbl2m q hrest
        injection h with h1 h2
        subst h1
        obtain ⟨hinv2, hsch, _, _⟩ := insertRow_plain_step db tbl c cd row
          p.1 p.2.1 p.2.2 hmem hnd hu hck hinv heqR
        obtain ⟨hinvF, hschF⟩ := ih p.1 tbl2m q.1 q.2
          (by rw [hsch]; exact hmem) (by rw [hsch]; exact hnd) hu hck hinv2 hrest
        exact ⟨hinvF, hschF.trans hsch⟩
      · rename_i tbl2m e hrest
        injection h with h1 h2
        exact Except.noConfusion h2

/-- C4 (amended): on a plain table (no compression, no encryption) whose
unique column has a checked data type, any successful batch of inserts
leaves the live pages pairwise distinct at that column, and a further
insert that succeeds never matches a live value there — equivalently, an
insert duplicating a live value at the unique column cannot succeed. -/
theorem C4_unique_plain_amended (db : Database) (tbl : Table) (c : String)
    (cd : ColumnDefinition) (rows : List Row) (tbl1 : Table) (ids : List Int)
    (rows1 : List Row)
    (hmem : (c, cd) ∈ tbl.TableSchema)
    (hnd : (tbl.TableSchema.map Prod.fst).Nodup)
    (hu : cd.Unique = true)
    (hck : goToUpper cd.DataType ∈ checkedTypes)
    (hinv : UniquePlainInv tbl c)
    (hins : Insert db tbl rows = (tbl1, Except.ok (ids, rows1))) :
    DistinctAt c tbl1.Rows.pages ∧
    (∀ row tbl2 rid row2,
      insertRow db tbl1 row = Except.ok (tbl2, rid, row2) →
      ∀ j : Nat, j < tbl1.Rows.pages.length → ∀ r,
        decodeRow (tbl1.Rows.pages.getD j []) = some r →
        (rowGet row2 c).getD Value.vNull ≠ (rowGet r c).getD Value.vNull) := by
  obtain ⟨hinv1, hsch⟩ :=
    Insert_plain_inv db c cd rows tbl tbl1 ids rows1 hmem hnd hu hck hinv hins
  refine ⟨hinv1.distinct, ?_⟩
  intro row tbl2 rid row2 hrow j hj r hr
  obtain ⟨_, _, _, hnocol⟩ := insertRow_plain_step db tbl1 c cd row tbl2 rid row2
    (by rw [hsch]; exact hmem) (by rw [hsch]; exact hnd) hu hck hinv1 hrow
  exact hnocol j hj r hr

/-- Witness data for the amended C4: an INT UNIQUE NOT NULL column on a
fresh plain table. -/
def c4wCd : ColumnDefinition :=
  { DataType := "INT", NotNull := true, Sequence := false, Unique := true,
    Length := 0, Scale := 0, Precision := 0, References := none, Default := none }

def c4wIdx : Index :=
  { Name := "unique_a", Columns := ["a"], Unique := true, btree := [] }

def c4wTbl : Table :=
  { Name := "t", Indexes := [("unique_a", c4wIdx)]
    Rows := { pages := [], deleted := [] }
    TableSchema := [("a", c4wCd)], SequenceFile := [], Compress := false
    Encrypt := false, HashedKey := [], Nonce := [] }

def c4wDb : Database := { Name := "d", Tables := [("t", c4wTbl)] }

def c4wRows : List Row := [[("a", Value.vInt 1)]]

def c4wIdx1 : Index :=
  { Name := "unique_a", Columns := ["a"], Unique := true, btree := [("1", ["0"])] }

def c4wTbl1 : Table :=
  { Name := "t", Indexes := [("unique_a", c4wIdx1)]
    Rows := { pages := [EncodeRow [("a", Value.vInt 1)]], deleted := [] }
    TableSchema := [("a", c4wCd)], SequenceFile := [], Compress := false
    Encrypt := false, HashedKey := [], Nonce := [] }

theorem C4_unique_plain_amended_witness :
    DistinctAt "a" c4wTbl1.Rows.pages ∧
    (∀ row tbl2 rid row2,
      insertRow c4wDb c4wTbl1 row = Except.ok (tbl2, rid, row2) →
      ∀ j : Nat, j < c4wTbl1.Rows.pages.length → ∀ r,
        decodeRow (c4wTbl1.Rows.pages.getD j []) = some r →
        (rowGet row2 "a").getD Value.vNull ≠ (rowGet r "a").getD Value.vNull) :=
  by
  have hmem : ("a", c4wCd) ∈ c4wTbl.TableSchema := List.mem_cons_self _ _
  have hnd : (c4wTbl.TableSchema.map Prod.fst).Nodup := by decide
  have hck : goToUpper c4wCd.DataType ∈ checkedTypes := by decide
  have hinv : UniquePlainInv c4wTbl "a" :=
    ⟨rfl, rfl, rfl,
      ⟨("unique_a", c4wIdx), rfl, fun j hj r hr => absurd hj (Nat.not_lt_zero j)⟩,
      fun i j hi hj hij ri rj hri hrj => absurd hi (Nat.not_lt_zero i)⟩
  have hins : Insert c4wDb c4wTbl c4wRows =
      (c4wTbl1, Except.ok ([0], [[("a", Value.vInt 1)]])) := rfl
  exact C4_unique_plain_amended c4wDb c4wTbl "a" c4wCd c4wRows c4wTbl1 [0]
    [[("a", Value.vInt 1)]] hmem hnd rfl hck hinv hins


/-! ## C5 amended: exactness of single-column unique indexes on plain
tables under inserts and live deletes -/

theorem assocGet_mapSet_none {α : Type} (l : List (String × α)) (c : String)
    (f : α → α) (hn : assocGet l c = none) :
    assocGet (l.map fun e => if e.1 = c then (e.1, f e.2) else e) c = none := by
  induction l with
  | nil => rfl
  | cons e l ih =>
    rw [assocGet] at hn
    by_cases he : e.1 = c
    · rw [if_pos he] at hn
      cases hn
    · rw [if_neg he] at hn
      simp only [List.map_cons, if_neg he]
      rw [assocGet, if_neg he]
      exact ih hn

theorem btreeGet_remove_self (t : BTreeMap) (k v : String) :
    btreeGet (btreeRemove t k v) k = (btreeGet t k).map (fun l => l.erase v) := by
  unfold btreeRemove btreeGet
  rcases hw : assocGet t k with _ | w
  · rw [assocGet_mapSet_none t k (fun l => l.erase v) hw]
    rfl
  · rw [assocGet_mapSet_self t k (fun l => l.erase v) w hw]
    rfl

theorem btreeGet_remove_ne (t : BTreeMap) (k v y : String) (hy : y ≠ k) :
    btreeGet (btreeRemove t k v) y = btreeGet t y := by
  unfold btreeRemove btreeGet
  exact assocGet_mapSet_ne t k y (fun l => l.erase v) hy

/-- Row-id strings are injective in the id. -/
theorem ridStr_inj (i j : Nat)
    (h : String.mk (itoaInt (i : Int)) = String.mk (itoaInt (j : Int))) : i = j := by
  injection h with h
  have h2 : atoiChars (itoaInt (i : Int)) = atoiChars (itoaInt (j : Int)) := by rw [h]
  rw [itoaInt_ofNat, itoaInt_ofNat, atoiChars_itoaNat, atoiChars_itoaNat] at h2
  injection h2 with h2
  exact_mod_cast h2

theorem assocGet_none_not_mem {α : Type} (l : List (String × α)) (k : String)
    (h : assocGet l k = none) : k ∉ l.map Prod.fst := by
  induction l with
  | nil => exact List.not_mem_nil k
  | cons e l ih =>
    rw [assocGet] at h
    by_cases he : e.1 = k
    · rw [if_pos he] at h
      cases h
    · rw [if_neg he] at h
      simp only [List.map_cons, List.mem_cons]
      rintro (hk | hk)
      · exact he hk.symm
      · exact ih h hk

theorem mapSet_keys {α : Type} (l : List (String × α)) (c : String) (v : α) :
    ((l.map fun e => if e.1 = c then (e.1, v) else e).map Prod.fst) =
      l.map Prod.fst := by
  induction l with
  | nil => rfl
  | cons e l ih =>
    simp only [List.map_cons]
    rw [ih]
    by_cases he : e.1 = c
    · rw [if_pos he]
    · rw [if_neg he]

theorem rowSet_keys_nodup (row : Row) (c : String) (v : Value)
    (hnd : (row.map Prod.fst).Nodup) :
    ((rowSet row c v).map Prod.fst).Nodup := by
  unfold rowSet
  split
  · rw [mapSet_keys]
    exact hnd
  · rename_i hns
    have hnone : assocGet row c = none := by
      rcases hw : assocGet row c with _ | w
      · rfl
      · rw [show rowGet row c = assocGet row c from rfl, hw] at hns
        simp at hns
    simp only [List.map_append, List.map_cons, List.map_nil]
    rw [List.nodup_append]
    refine ⟨hnd, List.nodup_singleton _, ?_⟩
    intro a ha hb
    rw [List.mem_singleton] at hb
    subst hb
    exact assocGet_none_not_mem row _ hnone ha

theorem fill_keys_nodup (row : Row) (c : String)
    (hnd : (row.map Prod.fst).Nodup) :
    (((if (rowGet row c).isNone then row ++ [(c, Value.vNull)] else row).map
      Prod.fst)).Nodup := by
  split
  · rename_i hn
    simp only [List.map_append, List.map_cons, List.map_nil]
    rw [List.nodup_append]
    refine ⟨hnd, List.nodup_singleton _, ?_⟩
    intro a ha hb
    rw [List.mem_singleton] at hb
    subst hb
    exact assocGet_none_not_mem row _ (Option.isNone_iff_eq_none.mp hn) ha
  · exact hnd


/-- The `INT` arm keeps row keys duplicate-free. -/
theorem insertColTypeInt_keys (tbl : Table) (colName : String)
    (cd : ColumnDefinition) (row : Row) (dt : String) (o : ColOutcome)
    (h : insertColTypeInt tbl colName cd row dt = Except.ok o)
    (hnd : (row.map Prod.fst).Nodup) :
    ∀ t2 r2, o = ColOutcome.proceed t2 r2 ∨ o = ColOutcome.skip t2 r2 →
      (r2.map Prod.fst).Nodup := by
  unfold insertColTypeInt at h
  repeat
    first
    | exact Except.noConfusion h
    | (injection h with h2
       intro t2 r2 hor
       rcases hor with hor | hor <;>
         first
         | (injection (h2.trans hor) with hT hR
            rw [← hR]
            first
            | exact hnd
            | exact rowSet_keys_nodup row colName _ hnd)
         | exact ColOutcome.noConfusion (h2.trans hor))
    | split at h
    | dsimp only [] at h

/-- Every arm of the data-type switch keeps row keys duplicate-free. -/
theorem insertColTypeCore_keys (tbl : Table) (colName : String)
    (cd : ColumnDefinition) (row : Row) (dt : String) (v : Value) (o : ColOutcome)
    (h : insertColTypeCore tbl colName cd row dt v = Except.ok o)
    (hnd : (row.map Prod.fst).Nodup) :
    ∀ t2 r2, o = ColOutcome.proceed t2 r2 ∨ o = ColOutcome.skip t2 r2 →
      (r2.map Prod.fst).Nodup := by
  unfold insertColTypeCore at h
  iterate 7 all_goals try split at h
  all_goals try (unfold insertColTypeTail at h)
  iterate 6 all_goals try split at h
  all_goals
    first
    | exact Except.noConfusion h
    | exact insertColTypeInt_keys tbl colName cd row dt o h hnd
    | (simp only [insertColTypeText, insertColTypeBool, insertColTypeBlob,
         insertColTypeBinary, insertColTypeUUID, insertColTypeDatetime,
         insertColTypeDate, insertColTypeTime, insertColTypeChar,
         insertColTypeNumeric, uuidParseStep] at h
       repeat
         first
         | exact Except.noConfusion h
         | (injection h with h2
            intro t2 r2 hor
            rcases hor with hor | hor <;>
              first
              | (injection (h2.trans hor) with hT hR
                 rw [← hR]
                 first
                 | exact hnd
                 | exact rowSet_keys_nodup row colName _ hnd)
              | exact ColOutcome.noConfusion (h2.trans hor))
         | split at h)

/-- Wrapper form of the keys fact at the computed scrutinees. -/
theorem insertColType_keys (tbl : Table) (colName : String)
    (cd : ColumnDefinition) (row : Row) (o : ColOutcome)
    (h : insertColType tbl colName cd row = Except.ok o)
    (hnd : (row.map Prod.fst).Nodup) :
    ∀ t2 r2, o = ColOutcome.proceed t2 r2 ∨ o = ColOutcome.skip t2 r2 →
      (r2.map Prod.fst).Nodup :=
  insertColTypeCore_keys tbl colName cd row (goToUpper cd.DataType)
    ((rowGet row colName).getD Value.vNull) o h hnd

/-- The schema loop keeps row keys duplicate-free. -/
theorem insertColsLoop_keys (db : Database) :
    ∀ (schema : List (String × ColumnDefinition)) (tbl : Table) (row : Row)
      (out : Table × Row),
      insertColsLoop db schema tbl row = Except.ok out →
      (row.map Prod.fst).Nodup → (out.2.map Prod.fst).Nodup := by
  intro schema
  induction schema with
  | nil =>
    intro tbl row out h hnd
    unfold insertColsLoop at h
    injection h with h1
    subst h1
    exact hnd
  | cons e rest ih =>
    intro tbl row out h hnd
    obtain ⟨colName, colDef⟩ := e
    unfold insertColsLoop at h
    split at h
    · exact Except.noConfusion h
    · generalize hfill : (if (rowGet row colName).isNone then
        row ++ [(colName, Value.vNull)] else row) = rowf at h
      have hndf : (rowf.map Prod.fst).Nodup := by
        rw [← hfill]
        exact fill_keys_nodup row colName hnd
      split at h
      · exact Except.noConfusion h
      · rename_i tblS rowS heqA
        refine ih _ _ out h ?_
        exact insertColType_keys tbl colName colDef rowf _ heqA hndf
          tblS rowS (Or.inr rfl)
      · rename_i tblP rowP heqA
        split at h
        · exact Except.noConfusion h
        · split at h
          · exact Except.noConfusion h
          · refine ih _ _ out h ?_
            exact insertColType_keys tbl colName colDef rowf _ heqA hndf
              tblP rowP (Or.inl rfl)


/-- One step of the per-entry index maintenance of insert and delete: a
covering index has its B-tree transformed by `g` at the entry value. -/
def idxMapStep (g : Value → BTreeMap → BTreeMap) (e : String × Value)
    (ni : String × Index) : String × Index :=
  if ni.2.Columns.contains e.1 then (ni.1, { ni.2 with btree := g e.2 ni.2.btree })
  else ni

theorem idxMapStep_pred (g : Value → BTreeMap → BTreeMap) (e : String × Value)
    (c : String) (ni : String × Index) :
    ((idxMapStep g e ni).2.Columns.contains c &&
        (idxMapStep g e ni).2.Unique == true) =
      (ni.2.Columns.contains c && ni.2.Unique == true) := by
  unfold idxMapStep
  split <;> rfl

theorem idxMapStep_columns (g : Value → BTreeMap → BTreeMap) (e : String × Value)
    (ni : String × Index) : (idxMapStep g e ni).2.Columns = ni.2.Columns := by
  unfold idxMapStep
  split <;> rfl

/-- Folding the per-entry maintenance over a row: on an index covering
exactly `[c]`, the B-tree is transformed by `g` once per `c`-entry. -/
theorem foldIdx_single (c : String) (g : Value → BTreeMap → BTreeMap) :
    ∀ (row : Row) (idxs : List (String × Index)) (ni : String × Index),
      idxs.find? (fun p => p.2.Columns.contains c && p.2.Unique == true) = some ni →
      ni.2.Columns = [c] →
      ∃ ni2,
        (row.foldl (fun idxs e => idxs.map (idxMapStep g e)) idxs).find?
          (fun p => p.2.Columns.contains c && p.2.Unique == true) = some ni2 ∧
        ni2.2.Columns = [c] ∧
        ni2.2.btree =
          row.foldl (fun t e => if e.1 = c then g e.2 t else t) ni.2.btree := by
  intro row
  induction row with
  | nil =>
    intro idxs ni hf hcols
    exact ⟨ni, hf, hcols, rfl⟩
  | cons e rest ih =>
    intro idxs ni hf hcols
    have hmap : (idxs.map (idxMapStep g e)).find?
        (fun p => p.2.Columns.contains c && p.2.Unique == true) =
        some (idxMapStep g e ni) := by
      rw [List.find?_map]
      have hpred : ((fun p : String × Index =>
          p.2.Columns.contains c && p.2.Unique == true) ∘ idxMapStep g e) =
          (fun p : String × Index => p.2.Columns.contains c && p.2.Unique == true) :=
        funext fun ni2 => idxMapStep_pred g e c ni2
      rw [hpred, hf]
      rfl
    have hcols2 : (idxMapStep g e ni).2.Columns = [c] := by
      rw [idxMapStep_columns]
      exact hcols
    obtain ⟨ni2, hf2, hc2, hb2⟩ := ih _ _ hmap hcols2
    refine ⟨ni2, hf2, hc2, ?_⟩
    have hstep : (idxMapStep g e ni).2.btree =
        if e.1 = c then g e.2 ni.2.btree else ni.2.btree := by
      unfold idxMapStep
      by_cases hcc : e.1 = c
      · rw [if_pos hcc,
          if_pos (show ni.2.Columns.contains e.1 = true by rw [hcols, hcc]; simp)]
      · rw [if_neg hcc,
          if_neg (show ¬ni.2.Columns.contains e.1 = true by
            rw [hcols]
            simp only [List.contains_cons, List.contains_nil, Bool.or_false]
            exact fun hh => hcc (eq_of_beq hh))]
    rw [hb2, hstep, List.foldl_cons]

theorem foldBtree_none (c : String) (g : Value → BTreeMap → BTreeMap) :
    ∀ (row : Row) (t : BTreeMap), (∀ e ∈ row, e.1 ≠ c) →
      row.foldl (fun t e => if e.1 = c then g e.2 t else t) t = t := by
  intro row
  induction row with
  | nil => intro t _; rfl
  | cons e rest ih =>
    intro t hall
    rw [List.foldl_cons, if_neg (hall e (List.mem_cons_self _ _))]
    exact ih t (fun x hx => hall x (List.mem_cons_of_mem _ hx))

/-- Over a row with duplicate-free keys, the per-entry fold for column `c`
is a single application of `g` at the stored value, or the identity when the
column is absent. -/
theorem foldBtree_single (c : String) (g : Value → BTreeMap → BTreeMap) :
    ∀ (row : Row) (t : BTreeMap), (row.map Prod.fst).Nodup →
      row.foldl (fun t e => if e.1 = c then g e.2 t else t) t =
        (match rowGet row c with
          | some v => g v t
          | none => t) := by
  intro row
  induction row with
  | nil => intro t _; rfl
  | cons e rest ih =>
    intro t hnd
    simp only [List.map_cons, List.nodup_cons] at hnd
    obtain ⟨hne, hndr⟩ := hnd
    by_cases hcc : e.1 = c
    · rw [List.foldl_cons, if_pos hcc]
      have hrg : rowGet (e :: rest) c = some e.2 := by
        show assocGet (e :: rest) c = some e.2
        rw [assocGet, if_pos hcc]
      rw [hrg]
      refine foldBtree_none c g rest (g e.2 t) ?_
      intro x hx hxc
      have hx1 : x.1 = e.1 := hxc.trans hcc.symm
      refine hne ?_
      rw [← hx1]
      exact List.mem_map_of_mem Prod.fst hx
    · rw [List.foldl_cons, if_neg hcc]
      have hrg : rowGet (e :: rest) c = rowGet rest c := by
        show assocGet (e :: rest) c = assocGet rest c
        rw [assocGet, if_neg hcc]
      rw [hrg]
      exact ih t hndr


/-- A row id is live when its page exists and it is not marked deleted. -/
def liveAt (p : Pager) (j : Nat) : Bool :=
  decide (j < p.pages.length) && !(p.deleted.contains (j : Int))

/-- The page of row id `j` decodes and its stringified value at `c` is `k`. -/
def pairAt (p : Pager) (c : String) (j : Nat) (k : String) : Bool :=
  match decodeRow (p.pages.getD j []) with
  | some r => stringify ((rowGet r c).getD Value.vNull) == k
  | none => false

theorem liveAt_iff (p : Pager) (j : Nat) :
    liveAt p j = true ↔ j < p.pages.length ∧ (j : Int) ∉ p.deleted := by
  simp [liveAt]

theorem pairAt_some (p : Pager) (c : String) (j : Nat) (k : String) (r : Row)
    (hr : decodeRow (p.pages.getD j []) = some r) :
    pairAt p c j k = (stringify ((rowGet r c).getD Value.vNull) == k) := by
  unfold pairAt
  rw [hr]

theorem btree_count_put (t : BTreeMap) (k v : String) (k2 s : String) :
    ((btreeGet (btreePut t k v) k2).getD []).count s =
      ((btreeGet t k2).getD []).count s + (if k2 = k ∧ s = v then 1 else 0) := by
  by_cases hk : k2 = k
  · subst hk
    rw [btreeGet_put_self]
    by_cases hs : s = v
    · subst hs
      simp [List.count_append]
    · simp [List.count_append, List.count_singleton, hs]
  · rw [btreeGet_put_ne t k v k2 hk]
    simp [hk]

theorem btree_count_remove (t : BTreeMap) (k v : String) (k2 s : String) :
    ((btreeGet (btreeRemove t k v) k2).getD []).count s =
      (if k2 = k ∧ s = v then ((btreeGet t k2).getD []).count s - 1
        else ((btreeGet t k2).getD []).count s) := by
  by_cases hk : k2 = k
  · subst hk
    rw [btreeGet_remove_self]
    rcases hw : btreeGet t k2 with _ | l
    · simp
    · by_cases hs : s = v
      · subst hs
        simp [List.count_erase_self]
      · simp [List.count_erase_of_ne hs, hs]
  · rw [btreeGet_remove_ne t k v k2 hk]
    simp [hk]

theorem btree_mem_remove (t : BTreeMap) (k v : String) (k2 s : String)
    (h : s ∈ (btreeGet (btreeRemove t k v) k2).getD []) :
    s ∈ (btreeGet t k2).getD [] := by
  by_cases hk : k2 = k
  · subst hk
    rw [btreeGet_remove_self] at h
    rcases hw : btreeGet t k2 with _ | l
    · rw [hw] at h
      cases h
    · rw [hw] at h
      exact List.mem_of_mem_erase h
  · rw [btreeGet_remove_ne t k v k2 hk] at h
    exact h

theorem btree_mem_put_cases (t : BTreeMap) (k v : String) (k2 s : String)
    (h : s ∈ (btreeGet (btreePut t k v) k2).getD []) :
    s ∈ (btreeGet t k2).getD [] ∨ s = v := by
  by_cases hk : k2 = k
  · subst hk
    rw [btreeGet_put_self] at h
    rcases List.mem_append.mp h with h | h
    · left
      exact h
    · right
      exact List.mem_singleton.mp h
  · rw [btreeGet_put_ne t k v k2 hk] at h
    exact Or.inl h

/-- The data rows of the model decode from no empty page. -/
theorem decodeRow_nil : decodeRow ([] : List Nat) = none := rfl

/-- The exactness invariant of the amended index claim (C5): a plain table
whose deleted ids stay in range, whose pages hold duplicate-free row maps
with the column present while live, and whose unique single-column index
over `c` lists each live row id exactly once under the stringified stored
value and nowhere else. -/
structure IdxExactInv (tbl : Table) (c : String) : Prop where
  plainC : tbl.Compress = false
  plainE : tbl.Encrypt = false
  delB : ∀ d ∈ tbl.Rows.deleted, 0 ≤ d ∧ d < (tbl.Rows.pages.length : Int)
  keysND : ∀ j : Nat, j < tbl.Rows.pages.length → ∀ r,
    decodeRow (tbl.Rows.pages.getD j []) = some r → (r.map Prod.fst).Nodup
  colPresent : ∀ j : Nat, liveAt tbl.Rows j = true → ∀ r,
    decodeRow (tbl.Rows.pages.getD j []) = some r → (rowGet r c).isSome = true
  found : ∃ ni : String × Index,
    tbl.Indexes.find? (fun p => p.2.Columns.contains c && p.2.Unique == true) =
      some ni ∧ ni.2.Columns = [c] ∧
    (∀ (k : String) (j : Nat),
      ((btreeGet ni.2.btree k).getD []).count (String.mk (itoaInt (j : Int))) =
        if liveAt tbl.Rows j && pairAt tbl.Rows c j k then 1 else 0) ∧
    (∀ k s, s ∈ (btreeGet ni.2.btree k).getD [] →
      ∃ j : Nat, s = String.mk (itoaInt (j : Int)))


/-- The per-row put and removal actions on a covering B-tree. -/
def gPut (rid : Int) : Value → BTreeMap → BTreeMap :=
  fun v t => btreePut t (stringify v) (String.mk (itoaInt rid))

def gRem (rid : Int) : Value → BTreeMap → BTreeMap :=
  fun v t => btreeRemove t (stringify v) (String.mk (itoaInt rid))

/-- One successful plain insert keeps the index-exactness invariant. -/
theorem insertRow_exact_step (db : Database) (tbl : Table) (c : String)
    (cd : ColumnDefinition) (row : Row) (tbl2 : Table) (rid : Int) (row2 : Row)
    (hmem : (c, cd) ∈ tbl.TableSchema)
    (hnd : (tbl.TableSchema.map Prod.fst).Nodup)
    (hck : goToUpper cd.DataType ∈ checkedTypes)
    (hrnd : (row.map Prod.fst).Nodup)
    (hinv : IdxExactInv tbl c)
    (h : insertRow db tbl row = Except.ok (tbl2, rid, row2)) :
    IdxExactInv tbl2 c ∧ tbl2.TableSchema = tbl.TableSchema := by
  unfold insertRow at h
  split at h
  · exact Except.noConfusion h
  · rename_i tbl1 row1 hloop
    have hrnd1 : (row1.map Prod.fst).Nodup :=
      insertColsLoop_keys db tbl.TableSchema tbl row (tbl1, row1) hloop hrnd
    obtain ⟨⟨sf, hT1⟩, hmonoL, hprL, hcolsL⟩ :=
      insertColsLoop_spec db tbl.TableSchema tbl row (tbl1, row1) hnd hloop
    have hT1b : tbl1 = { tbl with SequenceFile := sf } := hT1
    subst hT1b
    split at h
    · exact Except.noConfusion h
    · rename_i tblW rid0 hwr
      have hwrE := writeRow_plain_eq _ row1 (tblW, rid0) hwr hinv.plainC hinv.plainE
      injection hwrE with hwA hwB
      subst hwA
      subst hwB
      split at h
      · exact Except.noConfusion h
      · rename_i tblI hput
        have hputE := indexPutAll_plain_eq _ row1 _ tblI hput hinv.plainC hinv.plainE
        subst hputE
        injection h with h5
        injection h5 with h5a h5b
        injection h5b with h5b h5c
        subst h5a
        subst h5b
        subst h5c
        obtain ⟨sf2, rowc, hchk, hval, hsome⟩ := hcolsL c cd hmem hck
        have hsome2 : (rowGet row1 c).isSome = true := hsome
        rcases hv1 : rowGet row1 c with _ | v1
        · rw [hv1] at hsome2
          cases hsome2
        · obtain ⟨ni, hfind, hcols, hcount, hshape⟩ := hinv.found
          obtain ⟨ni2, hfind2, hcols2, hbt2⟩ :=
            foldIdx_single c (gPut (tbl.Rows.pages.length : Int)) row1
              tbl.Indexes ni hfind hcols
          rw [foldBtree_single c (gPut (tbl.Rows.pages.length : Int)) row1
            ni.2.btree hrnd1, hv1] at hbt2
          simp only [gPut] at hbt2
          have hgetN : (tbl.Rows.pages ++ [EncodeRow row1]).getD
              tbl.Rows.pages.length [] = EncodeRow row1 := by
            rw [List.getD_append_right _ _ _ _ (Nat.le_refl _)]
            simp
          have hlen2 : (tbl.Rows.pages ++ [EncodeRow row1]).length =
              tbl.Rows.pages.length + 1 := by simp
          refine ⟨⟨hinv.plainC, hinv.plainE, ?_, ?_, ?_, ?_⟩, rfl⟩
          · intro d hd
            obtain ⟨hd0, hdlt⟩ := hinv.delB d hd
            refine ⟨hd0, ?_⟩
            show d < ((tbl.Rows.pages ++ [EncodeRow row1]).length : Int)
            rw [hlen2]
            push_cast
            omega
          · intro j hj r hr
            have hj2 : j < tbl.Rows.pages.length + 1 := by
              rw [← hlen2]
              exact hj
            have hr3 : decodeRow ((tbl.Rows.pages ++ [EncodeRow row1]).getD j []) =
              some r := hr
            by_cases hjN : j < tbl.Rows.pages.length
            · rw [List.getD_append _ _ _ _ hjN] at hr3
              exact hinv.keysND j hjN r hr3
            · have hje : j = tbl.Rows.pages.length := by omega
              subst hje
              rw [hgetN, decodeRow_EncodeRow] at hr3
              injection hr3 with hr3
              rw [← hr3]
              exact hrnd1
          · intro j hlive r hr
            have hr3 : decodeRow ((tbl.Rows.pages ++ [EncodeRow row1]).getD j []) =
              some r := hr
            have hlive2 : j < (tbl.Rows.pages ++ [EncodeRow row1]).length ∧
                (j : Int) ∉ tbl.Rows.deleted := (liveAt_iff _ j).mp hlive
            by_cases hjN : j < tbl.Rows.pages.length
            · rw [List.getD_append _ _ _ _ hjN] at hr3
              refine hinv.colPresent j ?_ r hr3
              rw [liveAt_iff]
              exact ⟨hjN, hlive2.2⟩
            · have hje : j = tbl.Rows.pages.length := by
                rw [hlen2] at hlive2
                omega
              subst hje
              rw [hgetN, decodeRow_EncodeRow] at hr3
              injection hr3 with hr3
              rw [← hr3, hv1]
              rfl
          · refine ⟨ni2, hfind2, hcols2, ?_, ?_⟩
            · intro k j
              show ((btreeGet ni2.2.btree k).getD []).count
                  (String.mk (itoaInt (j : Int))) =
                if liveAt (Pager.mk (tbl.Rows.pages ++ [EncodeRow row1])
                      tbl.Rows.deleted) j &&
                    pairAt (Pager.mk (tbl.Rows.pages ++ [EncodeRow row1])
                      tbl.Rows.deleted) c j k then 1 else 0
              rw [hbt2, btree_count_put, hcount k j]
              by_cases hjN : j = tbl.Rows.pages.length
              · subst hjN
                have hlive0 : liveAt tbl.Rows tbl.Rows.pages.length = false := by
                  simp [liveAt]
                have hliveN : liveAt (Pager.mk (tbl.Rows.pages ++ [EncodeRow row1])
                    tbl.Rows.deleted) tbl.Rows.pages.length = true := by
                  rw [liveAt_iff]
                  refine ⟨by simp, fun hdm => ?_⟩
                  have := (hinv.delB _ hdm).2
                  omega
                have hpairN : pairAt (Pager.mk (tbl.Rows.pages ++ [EncodeRow row1])
                    tbl.Rows.deleted) c tbl.Rows.pages.length k =
                    (stringify v1 == k) := by
                  rw [pairAt_some _ c _ k row1 (by rw [show (Pager.mk
                    (tbl.Rows.pages ++ [EncodeRow row1]) tbl.Rows.deleted).pages =
                    tbl.Rows.pages ++ [EncodeRow row1] from rfl, hgetN,
                    decodeRow_EncodeRow]), hv1]
                  rfl
                rw [hlive0, hliveN, hpairN]
                by_cases hk : k = stringify v1
                · subst hk
                  simp
                · simp [hk, Ne.symm hk]
              · have hridne : String.mk (itoaInt (j : Int)) ≠
                    String.mk (itoaInt ((tbl.Rows.pages.length : Nat) : Int)) :=
                  fun hh => hjN (ridStr_inj j tbl.Rows.pages.length hh)
                rw [if_neg (show ¬(k = stringify v1 ∧
                    String.mk (itoaInt (j : Int)) =
                    String.mk (itoaInt (tbl.Rows.pages.length : Int))) from
                  fun hand => hridne hand.2), Nat.add_zero]
                have hliveEq : liveAt (Pager.mk (tbl.Rows.pages ++ [EncodeRow row1])
                    tbl.Rows.deleted) j = liveAt tbl.Rows j := by
                  by_cases hjlt : j < tbl.Rows.pages.length
                  · simp [liveAt, hjlt, Nat.lt_succ_of_lt hjlt]
                  · simp [liveAt, hjlt, show ¬j < tbl.Rows.pages.length + 1 by omega]
                have hpairEq : pairAt (Pager.mk (tbl.Rows.pages ++ [EncodeRow row1])
                    tbl.Rows.deleted) c j k = pairAt tbl.Rows c j k := by
                  unfold pairAt
                  by_cases hjlt : j < tbl.Rows.pages.length
                  · rw [show (Pager.mk (tbl.Rows.pages ++ [EncodeRow row1])
                      tbl.Rows.deleted).pages = tbl.Rows.pages ++ [EncodeRow row1]
                      from rfl, List.getD_append _ _ _ _ hjlt]
                  · rw [show (Pager.mk (tbl.Rows.pages ++ [EncodeRow row1])
                      tbl.Rows.deleted).pages = tbl.Rows.pages ++ [EncodeRow row1]
                      from rfl, List.getD_eq_default _ _ (by
                        rw [hlen2]
                        omega),
                      List.getD_eq_default _ _ (by omega)]
                rw [hliveEq, hpairEq]
            · intro k s hsm
              rw [hbt2] at hsm
              rcases btree_mem_put_cases _ _ _ _ _ hsm with hsm | hsm
              · exact hshape k s hsm
              · exact ⟨tbl.Rows.pages.length, hsm⟩


/-- One successful delete of a live row keeps the index-exactness
invariant. -/
theorem DeleteRow_exact_step (tbl : Table) (c : String) (rid : Int)
    (tbl2 : Table)
    (hinv : IdxExactInv tbl c)
    (hlive : liveAt tbl.Rows rid.toNat = true)
    (h : DeleteRow tbl rid = (tbl2, Except.ok ())) :
    IdxExactInv tbl2 c ∧ tbl2.TableSchema = tbl.TableSchema := by
  unfold DeleteRow at h
  split at h
  · rename_i e heqP
    injection h with h1 h2
    exact Except.noConfusion h2
  · rename_i raw heqP
    unfold pagerGetPage at heqP
    split at heqP
    · rename_i hb
      injection heqP with heqP
      split at h
      · injection h with h1 h2
        exact Except.noConfusion h2
      · rename_i decoded hdec
        dsimp only [] at h
        split at h
        · rename_i e hdelE
          injection h with h1 h2
          exact Except.noConfusion h2
        · rename_i p hdel
          unfold pagerDeletePage at hdel
          rw [if_pos hb] at hdel
          injection hdel with hdel
          injection h with h1 h2
          subst h1
          subst hdel
          have hdec2 : decodeRow (tbl.Rows.pages.getD rid.toNat []) =
              some decoded := by
            rw [heqP]
            exact hdec
          have hj0 : rid.toNat < tbl.Rows.pages.length := by
            obtain ⟨hb0, hbl⟩ := hb
            omega
          have hndD : (decoded.map Prod.fst).Nodup :=
            hinv.keysND rid.toNat hj0 decoded hdec2
          have hpresD : (rowGet decoded c).isSome = true :=
            hinv.colPresent rid.toNat hlive decoded hdec2
          rcases hv0 : rowGet decoded c with _ | v0
          · rw [hv0] at hpresD
            cases hpresD
          · obtain ⟨ni, hfind, hcols, hcount, hshape⟩ := hinv.found
            obtain ⟨ni2, hfind2, hcols2, hbt2⟩ :=
              foldIdx_single c (gRem rid) decoded tbl.Indexes ni hfind hcols
            rw [foldBtree_single c (gRem rid) decoded ni.2.btree hndD, hv0] at hbt2
            simp only [gRem] at hbt2
            have hrs : String.mk (itoaInt ((rid.toNat : Nat) : Int)) =
                String.mk (itoaInt rid) := by
              rw [Int.toNat_of_nonneg hb.1]
            refine ⟨⟨hinv.plainC, hinv.plainE, ?_, ?_, ?_, ?_⟩, rfl⟩
            · intro d hd
              rcases List.mem_append.mp hd with hd | hd
              · exact hinv.delB d hd
              · rw [List.mem_singleton] at hd
                subst hd
                exact hb
            · intro j hj r hr
              exact hinv.keysND j hj r hr
            · intro j hlj r hr
              obtain ⟨hjl, hjd⟩ := (liveAt_iff _ j).mp hlj
              refine hinv.colPresent j ?_ r hr
              rw [liveAt_iff]
              exact ⟨hjl, fun hmm2 => hjd (List.mem_append_left _ hmm2)⟩
            · refine ⟨ni2, hfind2, hcols2, ?_, ?_⟩
              · intro k j
                show ((btreeGet ni2.2.btree k).getD []).count
                    (String.mk (itoaInt (j : Int))) =
                  if liveAt (Pager.mk tbl.Rows.pages
                        (tbl.Rows.deleted ++ [rid])) j &&
                      pairAt (Pager.mk tbl.Rows.pages
                        (tbl.Rows.deleted ++ [rid])) c j k then 1 else 0
                have hpairEq : pairAt (Pager.mk tbl.Rows.pages
                    (tbl.Rows.deleted ++ [rid])) c j k =
                    pairAt tbl.Rows c j k := rfl
                rw [hbt2, btree_count_remove, hcount k j, hpairEq]
                by_cases hjj : j = rid.toNat
                · subst hjj
                  have hlivenew : liveAt (Pager.mk tbl.Rows.pages
                      (tbl.Rows.deleted ++ [rid])) rid.toNat = false := by
                    simp [liveAt, Int.toNat_of_nonneg hb.1]
                  rw [hlivenew]
                  have hpair0 : pairAt tbl.Rows c rid.toNat k =
                      (stringify v0 == k) := by
                    rw [pairAt_some tbl.Rows c rid.toNat k decoded hdec2, hv0]
                    rfl
                  rw [hlive, hpair0]
                  by_cases hk : k = stringify v0
                  · subst hk
                    rw [if_pos ⟨rfl, hrs⟩]
                    simp
                  · rw [if_neg (fun hand => hk hand.1)]
                    simp [Ne.symm hk]
                · have hjne : (j : Int) ≠ rid := by
                    intro hh
                    apply hjj
                    omega
                  have hridne : String.mk (itoaInt (j : Int)) ≠
                      String.mk (itoaInt rid) := by
                    intro hh
                    rw [← hrs] at hh
                    exact hjj (ridStr_inj j rid.toNat hh)
                  rw [if_neg (show ¬(k = stringify v0 ∧
                      String.mk (itoaInt (j : Int)) =
                      String.mk (itoaInt rid)) from fun hand => hridne hand.2)]
                  have hliveEq : liveAt (Pager.mk tbl.Rows.pages
                      (tbl.Rows.deleted ++ [rid])) j = liveAt tbl.Rows j := by
                    unfold liveAt
                    congr 1
                    simp [hjne]
                  rw [hliveEq]
              · intro k s hsm
                rw [hbt2] at hsm
                exact hshape k s (btree_mem_remove _ _ _ _ _ hsm)
    · exact Except.noConfusion heqP


/-- The operations of the amended index claim. -/
inductive TableOp where
  | ins (row : Row)
  | rem (rid : Int)

/-- A successful run of operations from one table state to another: each
insert succeeds (on a duplicate-free row map, as Go maps are), and each
delete succeeds on a then-live row id. -/
inductive OpsTo (db : Database) : Table → List TableOp → Table → Prop where
  | nil : ∀ tbl, OpsTo db tbl [] tbl
  | ins : ∀ tbl row p rest tblF,
      (row.map Prod.fst).Nodup →
      insertRow db tbl row = Except.ok p →
      OpsTo db p.1 rest tblF → OpsTo db tbl (TableOp.ins row :: rest) tblF
  | rem : ∀ tbl rid tbl2 rest tblF,
      liveAt tbl.Rows rid.toNat = true →
      DeleteRow tbl rid = (tbl2, Except.ok ()) →
      OpsTo db tbl2 rest tblF → OpsTo db tbl (TableOp.rem rid :: rest) tblF

/-- The exactness invariant survives any valid run of inserts and live
deletes. -/
theorem OpsTo_exact_inv (db : Database) (c : String) (cd : ColumnDefinition) :
    ∀ (ops : List TableOp) (tbl tblF : Table),
      OpsTo db tbl ops tblF →
      (c, cd) ∈ tbl.TableSchema →
      (tbl.TableSchema.map Prod.fst).Nodup →
      goToUpper cd.DataType ∈ checkedTypes →
      IdxExactInv tbl c →
      IdxExactInv tblF c ∧ tblF.TableSchema = tbl.TableSchema := by
  intro ops tbl tblF hops
  induction hops with
  | nil tbl =>
    intro hmem hnd hck hinv
    exact ⟨hinv, rfl⟩
  | ins tbl row p rest tblF hrnd hrow hrest ih =>
    intro hmem hnd hck hinv
    obtain ⟨hinv2, hsch⟩ := insertRow_exact_step db tbl c cd row p.1 p.2.1 p.2.2
      hmem hnd hck hrnd hinv hrow
    obtain ⟨hinvF, hschF⟩ := ih (by rw [hsch]; exact hmem)
      (by rw [hsch]; exact hnd) hck hinv2
    exact ⟨hinvF, hschF.trans hsch⟩
  | rem tbl rid tbl2 rest tblF hlv hdel hrest ih =>
    intro hmem hnd hck hinv
    obtain ⟨hinv2, hsch⟩ := DeleteRow_exact_step tbl c rid tbl2 hinv hlv hdel
    obtain ⟨hinvF, hschF⟩ := ih (by rw [hsch]; exact hmem)
      (by rw [hsch]; exact hnd) hck hinv2
    exact ⟨hinvF, hschF.trans hsch⟩

/-- C5 (amended): on a plain table whose unique checked-type column `c`
carries its single-column `unique_<c>` index, after any successful run of
inserts and deletes of live rows (updates excluded — see the
counterexample), the index B-tree contains the pair
`(stringify r[c], rowId)` exactly for the live rows: membership in the
B-tree entry of a key holds exactly for the row ids of live pages whose
decoded row stringifies to that key at `c`. -/
theorem C5_index_exact_plain_amended (db : Database) (c : String)
    (cd : ColumnDefinition) (ops : List TableOp) (tbl tblF : Table)
    (hops : OpsTo db tbl ops tblF)
    (hmem : (c, cd) ∈ tbl.TableSchema)
    (hnd : (tbl.TableSchema.map Prod.fst).Nodup)
    (hck : goToUpper cd.DataType ∈ checkedTypes)
    (hinv : IdxExactInv tbl c) :
    ∃ ni : String × Index,
      tblF.Indexes.find? (fun p => p.2.Columns.contains c && p.2.Unique == true) =
        some ni ∧ ni.2.Columns = [c] ∧
      ∀ k s, s ∈ (btreeGet ni.2.btree k).getD [] ↔
        ∃ j : Nat, liveAt tblF.Rows j = true ∧ pairAt tblF.Rows c j k = true ∧
          s = String.mk (itoaInt (j : Int)) := by
  obtain ⟨hinvF, hschF⟩ :=
    OpsTo_exact_inv db c cd ops tbl tblF hops hmem hnd hck hinv
  obtain ⟨ni, hfind, hcols, hcount, hshape⟩ := hinvF.found
  refine ⟨ni, hfind, hcols, ?_⟩
  intro k s
  constructor
  · intro hs
    obtain ⟨j, hj⟩ := hshape k s hs
    subst hj
    have hpos : 0 < ((btreeGet ni.2.btree k).getD []).count
        (String.mk (itoaInt (j : Int))) := List.count_pos_iff.mpr hs
    rw [hcount k j] at hpos
    by_cases hcond : (liveAt tblF.Rows j && pairAt tblF.Rows c j k) = true
    · obtain ⟨h1, h2⟩ := Bool.and_eq_true_iff.mp hcond
      exact ⟨j, h1, h2, rfl⟩
    · rw [if_neg hcond] at hpos
      exact absurd hpos (by omega)
  · rintro ⟨j, hl, hp, rfl⟩
    have hc := hcount k j
    rw [hl, hp] at hc
    simp only [Bool.and_self, if_true] at hc
    refine List.count_pos_iff.mp ?_
    rw [hc]
    omega

/-- Witness data for the amended C5: insert one row into a fresh plain
table, then delete it. -/
def c5wCd : ColumnDefinition :=
  { DataType := "INT", NotNull := true, Sequence := false, Unique := true,
    Length := 0, Scale := 0, Precision := 0, References := none, Default := none }

def c5wIdx : Index :=
  { Name := "unique_a", Columns := ["a"], Unique := true, btree := [] }

def c5wTbl : Table :=
  { Name := "t", Indexes := [("unique_a", c5wIdx)]
    Rows := { pages := [], deleted := [] }
    TableSchema := [("a", c5wCd)], SequenceFile := [], Compress := false
    Encrypt := false, HashedKey := [], Nonce := [] }

def c5wDb : Database := { Name := "d", Tables := [("t", c5wTbl)] }

def c5wIdx1 : Index :=
  { Name := "unique_a", Columns := ["a"], Unique := true, btree := [("1", ["0"])] }

def c5wTbl1 : Table :=
  { Name := "t", Indexes := [("unique_a", c5wIdx1)]
    Rows := { pages := [EncodeRow [("a", Value.vInt 1)]], deleted := [] }
    TableSchema := [("a", c5wCd)], SequenceFile := [], Compress := false
    Encrypt := false, HashedKey := [], Nonce := [] }

def c5wIdxF : Index :=
  { Name := "unique_a", Columns := ["a"], Unique := true, btree := [("1", [])] }

def c5wTblF : Table :=
  { Name := "t", Indexes := [("unique_a", c5wIdxF)]
    Rows := { pages := [EncodeRow [("a", Value.vInt 1)]], deleted := [0] }
    TableSchema := [("a", c5wCd)], SequenceFile := [], Compress := false
    Encrypt := false, HashedKey := [], Nonce := [] }

def c5wOps : List TableOp := [TableOp.ins [("a", Value.vInt 1)], TableOp.rem 0]

theorem C5_index_exact_plain_amended_witness :
    ∃ ni : String × Index,
      c5wTblF.Indexes.find? (fun p =>
        p.2.Columns.contains "a" && p.2.Unique == true) = some ni ∧
      ni.2.Columns = ["a"] ∧
      ∀ k s, s ∈ (btreeGet ni.2.btree k).getD [] ↔
        ∃ j : Nat, liveAt c5wTblF.Rows j = true ∧
          pairAt c5wTblF.Rows "a" j k = true ∧
          s = String.mk (itoaInt (j : Int)) := by
  have hrow : insertRow c5wDb c5wTbl [("a", Value.vInt 1)] =
      Except.ok (c5wTbl1, ((0 : Int), [("a", Value.vInt 1)])) := rfl
  have hdel : DeleteRow c5wTbl1 0 = (c5wTblF, Except.ok ()) := rfl
  have hops : OpsTo c5wDb c5wTbl c5wOps c5wTblF :=
    OpsTo.ins c5wTbl [("a", Value.vInt 1)] (c5wTbl1, ((0 : Int), [("a", Value.vInt 1)]))
      [TableOp.rem 0] c5wTblF (by decide) hrow
      (OpsTo.rem c5wTbl1 0 c5wTblF [] c5wTblF (by decide) hdel (OpsTo.nil c5wTblF))
  have hmem : ("a", c5wCd) ∈ c5wTbl.TableSchema := List.mem_cons_self _ _
  have hnd : (c5wTbl.TableSchema.map Prod.fst).Nodup := by decide
  have hck : goToUpper c5wCd.DataType ∈ checkedTypes := by decide
  have hinv : IdxExactInv c5wTbl "a" :=
    ⟨rfl, rfl, fun d hd => absurd hd (List.not_mem_nil d),
      fun j hj => absurd hj (Nat.not_lt_zero j),
      fun j hlj => absurd hlj (by simp [liveAt, c5wTbl]),
      ⟨("unique_a", c5wIdx), rfl, rfl,
        fun k j => by simp [liveAt, btreeGet, assocGet, c5wIdx, c5wTbl],
        fun k s hsm => absurd hsm (by simp [btreeGet, assocGet, c5wIdx])⟩⟩
  exact C5_index_exact_plain_amended c5wDb "a" c5wCd c5wOps c5wTbl c5wTblF
    hops hmem hnd hck hinv

end AriaSQL
